import Mathlib

set_option maxRecDepth 2000

/-!
Verification of the ngu-decoder repository (src/index.js), a decoder for the
.NET Remoting BinaryFormatter wire format.  The JavaScript source is embedded
shallowly: JavaScript numbers are modelled as exact integers (all values in
the decoder stay far below 2^53, where float arithmetic is exact), while the
32-bit semantics of the bitwise operators `&`, `<<`, `>>` are made explicit
through `jsToInt32`/`jsToUInt32`.  Strings are modelled as their lists of
code units (`List Nat`), matching the byte-wise `charCodeAt`/`fromCharCode`
handling in the source.  Thrown exceptions are modelled with `Except`.
-/

/-- JavaScript ToUint32: reduce an integer modulo 2^32 into [0, 2^32). -/
def jsToUInt32 (x : Int) : Int := x % 4294967296

/-- JavaScript ToInt32: reduce an integer modulo 2^32 into [-2^31, 2^31). -/
def jsToInt32 (x : Int) : Int :=
  if jsToUInt32 x < 2147483648 then jsToUInt32 x else jsToUInt32 x - 4294967296

/-- JavaScript `a << s`: 32-bit shift of ToInt32 value, shift count mod 32. -/
def jsShl (a : Int) (s : Nat) : Int := jsToInt32 (jsToInt32 a * 2 ^ (s % 32))

/-- JavaScript `a >> s`: arithmetic right shift of the ToInt32 value. -/
def jsShr (a : Int) (s : Nat) : Int := Int.fdiv (jsToInt32 a) (2 ^ (s % 32))

/-- JavaScript `a & b`: bitwise and of the two ToInt32 values. -/
def jsAnd (a b : Int) : Int :=
  jsToInt32 ((Nat.land (jsToUInt32 a).toNat (jsToUInt32 b).toNat : Nat) : Int)

/-- The float value of `Math.pow(2, bits) - 1`.  Exact for bits up to 53; for
the one 64-bit use the subtraction rounds back up to 2^64 (the nearest double
to 2^64 - 1).  The reader is only invoked with widths 1, 7, 8, 16, 32, 64. -/
def jsMask (bits : Nat) : Int :=
  if bits = 64 then 18446744073709551616 else 2 ^ bits - 1

/-- `reduce` from src/index.js: little-endian accumulation of byte values,
`result += (b << (k * 8))`.  The shift is the 32-bit JavaScript shift (count
taken mod 32); the addition is exact float addition. -/
def reduceAux : List Nat → Nat → Int
  | [], _ => 0
  | b :: rest, k => jsShl ((b : Nat) : Int) (8 * k) + reduceAux rest (k + 1)

/-- `Array.prototype.slice(a, b)` on a list of bytes (clamping at the ends). -/
def jsSlice (l : List Nat) (a b : Nat) : List Nat := (l.drop a).take (b - a)

/-- The mutable cursor of `bitReader` in src/index.js: the byte array and the
current bit offset. -/
structure Reader where
  bytes : List Nat
  bit : Nat
deriving Repr

/-- `read(bits)` from src/index.js: slice the covered bytes, accumulate them
little-endian, shift out the intra-byte offset and mask to `bits` bits.
Returns the value and the advanced reader. -/
def read (r : Reader) (bits : Nat) : Int × Reader :=
  let startByte := r.bit / 8
  let endByte := (r.bit + bits + 7) / 8
  let b := jsSlice r.bytes startByte endByte
  let result := reduceAux b 0
  let mask := jsMask bits
  let result2 := jsShr result (r.bit % 8)
  (jsAnd result2 mask, { r with bit := r.bit + bits })

/-- `readByteArray(count)` from src/index.js: slice `count` raw bytes starting
at the current byte position and advance the cursor by `count * 8` bits.  (A
negative byte count, reachable only through a wrapped varint length, yields an
empty slice; the cursor is clamped at zero where JavaScript would go
negative - no modelled execution reaches that situation.) -/
def readByteArray (r : Reader) (count : Int) : List Nat × Reader :=
  let startByte := r.bit / 8
  let stopByte := ((startByte : Int) + count).toNat
  (jsSlice r.bytes startByte stopByte, { r with bit := ((r.bit : Int) + count * 8).toNat })

/-- `read8` from src/index.js. -/
def read8 (r : Reader) : Int × Reader := read r 8

/-- `read16` from src/index.js. -/
def read16 (r : Reader) : Int × Reader := read r 16

/-- `read32` from src/index.js. -/
def read32 (r : Reader) : Int × Reader := read r 32

/-- `read64` from src/index.js. -/
def read64 (r : Reader) : Int × Reader := read r 64

/-- The varint loop inside `readLengthPrefixedString`: up to five rounds of a
7-bit group followed by a continuation bit, accumulating
`len += nextLength << (multiplier * 7)`. -/
def varLoop : Nat → Nat → Int → Reader → Int × Reader
  | 0, _, len, r => (len, r)
  | j + 1, mult, len, r =>
    let g := read r 7
    let len2 := len + jsShl g.1 (7 * mult)
    let c := read g.2 1
    if c.1 ≠ 0 then varLoop j (mult + 1) len2 c.2 else (len2, c.2)

/-- The length-prefix part of `readLengthPrefixedString` from src/index.js. -/
def readVarLen (r : Reader) : Int × Reader := varLoop 5 0 0 r

/-- `readLengthPrefixedString` from src/index.js: varint length, then that
many raw bytes; the JavaScript source maps each byte through
`String.fromCharCode`, so the string is just the byte list. -/
def readLengthPrefixedString (r : Reader) : List Nat × Reader :=
  let len := readVarLen r
  readByteArray len.2 len.1

/-- The result of `deserializeAdditionalTypeInfo`: `null` for String, Object
and the array kinds, a primitive-type code byte, a system-class name, a
class-name/library-id pair, or `undefined` when the binary-type code matches
no switch case. -/
inductive AddInfo where
  | nullInfo
  | prim (n : Int)
  | sysClass (s : List Nat)
  | clsInfo (s : List Nat) (libId : Int)
  | undef
deriving Repr, DecidableEq

/-- A JavaScript value as it occurs in the decoder: `undefined`, `null`,
booleans, exact numbers (all integer-valued), raw IEEE bit patterns from
`readSingle`/`readDouble` (their float reinterpretation is out of scope),
strings as code-unit lists, the `{ref: id}` placeholder object, a pointer to
a mutable composite in the heap, a plain array (from `ArraySinglePrimitive`
and from projecting a binary array), and a plain object (from projection). -/
inductive Value where
  | vUndefined
  | vNull
  | vBool (b : Bool)
  | vInt (n : Int)
  | vSingleBits (n : Int)
  | vDoubleBits (lo hi : Int)
  | vStr (s : List Nat)
  | vRef (id : Int)
  | vAddr (a : Nat)
  | vArr (elems : List Value)
  | vObj (fields : List (List Nat × Value))
deriving Repr

/-- A mutable composite object: a class instance produced by
`deserializeClassWithMembersAndTypes`/`ClassWithId`, or the synthetic
composite built for a `BinaryArray` record (which carries the `rank`,
`lengths`, `lowerBounds` and `itemType` fields; for class instances those
fields are absent, modelled by `none`/`[]`). -/
structure Comp where
  objectId : Int := 0
  name : List Nat := []
  memberNames : List (List Nat) := []
  memberTypes : List Int := []
  additionalInfos : List AddInfo := []
  libraryId : Option Int := none
  memberValues : List Value := []
  rank : Option Int := none
  lengths : List Int := []
  lowerBounds : List Int := []
  itemType : Option Int := none
deriving Repr, Inhabited

/-- Heap lookup: composites live in an arena indexed by allocation order.
Every address handed out by the decoder is in range, so the default value is
never reached from an actual run. -/
def heapGetD (heap : List Comp) (a : Nat) : Comp := heap.getD a default

/-- `obj.rank` is truthy: present and nonzero. -/
def rankTruthy (c : Comp) : Bool :=
  match c.rank with
  | some r => r != 0
  | none => false

/-- The code units of the member name `_items`. -/
def itemsName : List Nat := [95, 105, 116, 101, 109, 115]

/-- The code units of the member name `value__`. -/
def valueName : List Nat := [118, 97, 108, 117, 101, 95, 95]

/-- `members[name] = v` on a JavaScript object modelled as an insertion-order
association list: an existing key keeps its position and gets the new value,
a fresh key is appended. -/
def jsInsert : List (List Nat × Value) → List Nat → Value → List (List Nat × Value)
  | [], k, v => [(k, v)]
  | (k1, v1) :: rest, k, v =>
    if k1 = k then (k1, v) :: rest else (k1, v1) :: jsInsert rest k v

/-- Elementwise projection of `memberValues.map(v => mapMembers(v, state))`,
with the recursive call abstracted as `f`. -/
def mapMembersList (f : Value → Option Value) : List Value → Option (List Value)
  | [] => some []
  | v :: vs => do
    let w ← f v
    let ws ← mapMembersList f vs
    some (w :: ws)

/-- The `for (const idx in obj.memberNames)` loop of `mapMembers`, carrying
the current index and the object built so far; the recursive call on a member
value is abstracted as `f`. -/
def mapMembersObj (f : Value → Option Value) :
    List (List Nat) → List Value → Nat → List (List Nat × Value) → Option Value
  | [], _, _, acc => some (.vObj acc)
  | nm :: rest, values, idx, acc =>
    if nm = itemsName ∨ nm = valueName then
      f (values.getD idx .vUndefined)
    else do
      let w ← f (values.getD idx .vUndefined)
      mapMembersObj f rest values (idx + 1) (jsInsert acc nm w)

/-- `mapMembers` from src/index.js.  Simple values (anything without a
`memberValues` field) are returned as they are; a composite with a truthy
`rank` is projected elementwise into an array; otherwise the member names are
folded into a plain object, except that a member named `_items` or `value__`
short-circuits and its projected value becomes the whole result.  The `fuel`
argument bounds the recursion depth; `none` models a recursion that does not
terminate (a cyclic object graph would overflow the JavaScript call stack). -/
def mapMembers (heap : List Comp) : Nat → Value → Option Value
  | 0, _ => none
  | fuel + 1, v =>
    match v with
    | .vAddr a =>
      let c := heapGetD heap a
      if rankTruthy c then (mapMembersList (mapMembers heap fuel) c.memberValues).map .vArr
      else mapMembersObj (mapMembers heap fuel) c.memberNames c.memberValues 0 []
    | w => some w

/-- `state.objects[k]`: look up an object id in the table. -/
def objLookup (objs : List (Int × Value)) (k : Int) : Option Value :=
  (objs.find? (fun p => p.1 == k)).map (fun p => p.2)

/-- `state.objects[k] = v`: an existing id keeps its position in the table and
gets the new value, a fresh id is appended (JavaScript property order). -/
def objSet : List (Int × Value) → Int → Value → List (Int × Value)
  | [], k, v => [(k, v)]
  | (k1, v1) :: rest, k, v =>
    if k1 = k then (k1, v) :: rest else (k1, v1) :: objSet rest k v

/-- Key order on object-table entries, used to model the JavaScript
own-property enumeration order of integer-like keys. -/
def entryLE (p q : Int × Value) : Prop := p.1 ≤ q.1

instance : DecidableRel entryLE := fun p q => inferInstanceAs (Decidable (p.1 ≤ q.1))

instance : IsTotal (Int × Value) entryLE := ⟨fun a b => Int.le_total a.1 b.1⟩

instance : IsTrans (Int × Value) entryLE := ⟨fun _ _ _ h1 h2 => le_trans h1 h2⟩

/-- `Object.values(state.objects)`: JavaScript enumerates array-index keys
(the nonnegative ids) in ascending numeric order first, then the remaining
(negative) ids in insertion order. -/
def jsValues (objs : List (Int × Value)) : List Value :=
  (List.insertionSort entryLE (objs.filter (fun p => decide (0 ≤ p.1)))).map (fun p => p.2)
    ++ (objs.filter (fun p => decide (p.1 < 0))).map (fun p => p.2)

/-- `Object.values(state.objects)[0]`: `undefined` when the table is empty. -/
def rootValue (objs : List (Int × Value)) : Value :=
  (jsValues objs).headD .vUndefined

/-- Append one value to the `memberValues` of the composite at address `pa`
(`currentObject.memberValues.push(v)`). -/
def pushMember (heap : List Comp) (pa : Nat) (v : Value) : List Comp :=
  let p := heapGetD heap pa
  heap.set pa { p with memberValues := p.memberValues ++ [v] }

/-- Append a whole list of values to the composite at `pa`
(`Array.prototype.push.apply(currentObject.memberValues, vs)`). -/
def pushMembers (heap : List Comp) (pa : Nat) (vs : List Value) : List Comp :=
  let p := heapGetD heap pa
  heap.set pa { p with memberValues := p.memberValues ++ vs }

/-- One recorded reference fix-up: the captured composite address, the member
slot index at record time, and the referenced object id. -/
def applyFixup (heap : List Comp) (f : Nat × Nat × Int) (objs : List (Int × Value)) :
    List Comp :=
  let c := heapGetD heap f.1
  heap.set f.1
    { c with memberValues := c.memberValues.set f.2.1 ((objLookup objs f.2.2).getD .vUndefined) }

/-- `for (const r of state.references) r();` - the fix-ups run in insertion
(FIFO) order; a missing id reads as `undefined`. -/
def applyFixups (heap : List Comp) (objs : List (Int × Value))
    (fs : List (Nat × Nat × Int)) : List Comp :=
  fs.foldl (fun h f => applyFixup h f objs) heap

/-- The exceptions the decoder can throw.  `typeError` covers the implicit
JavaScript TypeErrors: calling the nonexistent `reader.read7`/`reader.read1`,
and accessing `.memberValues` of an `undefined` current object.
`emptyReduce` is `Array.prototype.reduce` on an empty array;  `rangeError` is
`Array(n)` with an invalid length;  `overflow` models a projection recursion
that does not terminate (cyclic object graph). -/
inductive Err where
  | invalidHeader
  | unknownRecord (tag : Int)
  | unmappedPrimitive (n : Nat)
  | typeError
  | emptyReduce
  | rangeError
  | overflow
deriving Repr, DecidableEq

/-- `deserializePrimitiveType` from src/index.js, for a numeric primitive-type
code.  Codes 0 and 4 throw; code 10 (sbyte) calls `reader.read7()`, which
does not exist on the reader object, so it throws a TypeError before reading
anything; codes outside the switch fall through to `undefined`. -/
def deserializePrimitiveType (r : Reader) (t : Int) : Except Err (Value × Reader) :=
  if t = 0 then .error (.unmappedPrimitive 0)
  else if t = 1 then let p := read8 r; .ok (.vBool (p.1 != 0), p.2)
  else if t = 2 then let p := read8 r; .ok (.vInt p.1, p.2)
  else if t = 3 then let p := read8 r; .ok (.vInt p.1, p.2)
  else if t = 4 then .error (.unmappedPrimitive 4)
  else if t = 5 then let p := readLengthPrefixedString r; .ok (.vStr p.1, p.2)
  else if t = 6 then
    let lo := read32 r
    let hi := read32 lo.2
    .ok (.vDoubleBits lo.1 hi.1, hi.2)
  else if t = 7 then let p := read16 r; .ok (.vInt p.1, p.2)
  else if t = 8 then let p := read32 r; .ok (.vInt p.1, p.2)
  else if t = 9 then let p := read64 r; .ok (.vInt p.1, p.2)
  else if t = 10 then .error .typeError
  else if t = 11 then let p := read32 r; .ok (.vSingleBits p.1, p.2)
  else if t = 12 then let p := read64 r; .ok (.vInt p.1, p.2)
  else if t = 13 then let p := read64 r; .ok (.vInt p.1, p.2)
  else if t = 14 then let p := read16 r; .ok (.vInt p.1, p.2)
  else if t = 15 then let p := read32 r; .ok (.vInt p.1, p.2)
  else if t = 16 then let p := read64 r; .ok (.vInt p.1, p.2)
  else if t = 17 then .ok (.vNull, r)
  else if t = 18 then let p := readLengthPrefixedString r; .ok (.vStr p.1, p.2)
  else .ok (.vUndefined, r)

/-- The inline member decode `deserializePrimitiveType(reader,
currentObject.additionalInfos[idx])`: the stored additional info is the
switch scrutinee; only a number can match a numeric case, anything else
falls through to `undefined` without reading. -/
def deserializePrimitiveTypeOfInfo (r : Reader) (i : AddInfo) : Except Err (Value × Reader) :=
  match i with
  | .prim n => deserializePrimitiveType r n
  | _ => .ok (.vUndefined, r)

/-- `deserializeAdditionalTypeInfo` from src/index.js. -/
def deserializeAdditionalTypeInfo (r : Reader) (t : Int) : AddInfo × Reader :=
  if t = 1 ∨ t = 2 ∨ t = 5 ∨ t = 6 then (.nullInfo, r)
  else if t = 0 then let p := read8 r; (.prim p.1, p.2)
  else if t = 3 then let p := readLengthPrefixedString r; (.sysClass p.1, p.2)
  else if t = 4 then
    let s := readLengthPrefixedString r
    let lid := read32 s.2
    (.clsInfo s.1 lid.1, lid.2)
  else if t = 7 then let p := read8 r; (.prim p.1, p.2)
  else (.undef, r)

/-- Read `n` items with a reader-threading action. -/
def readN {α : Type} (f : Reader → α × Reader) : Nat → Reader → List α × Reader
  | 0, r => ([], r)
  | n + 1, r =>
    let x := f r
    let xs := readN f n x.2
    (x.1 :: xs.1, xs.2)

/-- The `additionalInfos` loop of `deserializeClassWithMembersAndTypes`: one
`deserializeAdditionalTypeInfo` per already-read member type. -/
def readInfos : List Int → Reader → List AddInfo × Reader
  | [], r => ([], r)
  | t :: ts, r =>
    let i := deserializeAdditionalTypeInfo r t
    let is := readInfos ts i.2
    (i.1 :: is.1, is.2)

/-- `deserializeHeader` from src/index.js: four u32 reads. -/
def deserializeHeader (r : Reader) : (Int × Int × Int × Int) × Reader :=
  let rootId := read32 r
  let headerId := read32 rootId.2
  let major := read32 headerId.2
  let minor := read32 major.2
  ((rootId.1, headerId.1, major.1, minor.1), minor.2)

/-- `deserializeBinaryLibrary` from src/index.js. -/
def deserializeBinaryLibrary (r : Reader) : (Int × List Nat) × Reader :=
  let id := read32 r
  let name := readLengthPrefixedString id.2
  ((id.1, name.1), name.2)

/-- `deserializeClassWithMembersAndTypes` from src/index.js: object id, class
name, member count, the member names, the member types, their additional
infos, and (for non-system classes) a library id.  Returns a composite with
empty `memberValues`. -/
def deserializeClassWithMembersAndTypes (r : Reader) (isSystem : Bool) : Comp × Reader :=
  let objectId := read32 r
  let name := readLengthPrefixedString objectId.2
  let memberCount := read32 name.2
  let memberNames := readN readLengthPrefixedString memberCount.1.toNat memberCount.2
  let memberTypes := readN read8 memberCount.1.toNat memberNames.2
  let additionalInfos := readInfos memberTypes.1 memberTypes.2
  let libRead :=
    if isSystem then ((none : Option Int), additionalInfos.2)
    else
      let lid := read32 additionalInfos.2
      (some lid.1, lid.2)
  ({ objectId := objectId.1, name := name.1, memberNames := memberNames.1,
     memberTypes := memberTypes.1, additionalInfos := additionalInfos.1,
     libraryId := libRead.1, memberValues := [] }, libRead.2)

/-- The whole mutable state of one `deserialize` call. -/
structure St where
  reader : Reader
  libraries : List (Int × List Nat)
  objects : List (Int × Value)
  references : List (Nat × Nat × Int)
  stack : List Nat
  heap : List Comp
  header : Option (Int × Int × Int × Int)
deriving Repr

/-- The record tag byte the next `reader.read8()` of the main loop would
deliver (used only in theorem statements). -/
def nextTag (st : St) : Int := (read8 st.reader).1

/-- Appending a freshly-introduced object to the parent composite when one is
open (`if (currentObject) currentObject.memberValues.push(v)`). -/
def parentPush (heap : List Comp) (cur : Option Nat) (v : Value) : List Comp :=
  match cur with
  | some pa => pushMember heap pa v
  | none => heap

/-- State transformation of the `case 0x00` branch: record the parsed header
into `result.header`. -/
def headerCore (hdr : (Int × Int × Int × Int) × Reader) (st : St) : Except Err (St ⊕ Value) :=
  .ok (.inl { st with reader := hdr.2, header := some hdr.1 })

/-- The `case 0x00` branch: parse the header record and record it. -/
def handleHeader (r0 : Reader) (st : St) : Except Err (St ⊕ Value) :=
  headerCore (deserializeHeader r0) st

/-- State transformation of the `case 0x01 ClassWithId` branch: clone the
class descriptor registered under `metadataId` with fresh `memberValues` and
the new object id, append the clone to the parent (when one is open), push it
and register it.  When `objects[metadataId]` is not a composite the spread
produces an object without `memberTypes` and the decode dies with a TypeError
(in the JavaScript source one loop iteration later; the decode aborts with
nothing observable either way). -/
def classWithIdCore (oid mid : Int) (r2 : Reader) (st : St) (cur : Option Nat) :
    Except Err (St ⊕ Value) :=
  match objLookup st.objects mid with
  | some (.vAddr ma) =>
    Except.ok (.inl
      { st with
        reader := r2,
        heap := parentPush st.heap cur (.vAddr st.heap.length) ++
          [{ heapGetD st.heap ma with
             memberValues := ([] : List Value), objectId := oid }],
        stack := st.heap.length :: st.stack,
        objects := objSet st.objects oid (.vAddr st.heap.length) })
  | _ => .error .typeError

/-- The `case 0x01 ClassWithId` branch: read `objectId` and `metadataId` and
clone the registered descriptor. -/
def handleClassWithId (r0 : Reader) (st : St) (cur : Option Nat) : Except Err (St ⊕ Value) :=
  classWithIdCore (read32 r0).1 (read32 (read32 r0).2).1 (read32 (read32 r0).2).2 st cur

/-- State transformation of the `case 0x04 / 0x05` branch: append the parsed
composite to the parent (when one is open), push it onto the open-object
stack and register it in the object table. -/
def classWithMembersCore (cls : Comp × Reader) (st : St) (cur : Option Nat) :
    Except Err (St ⊕ Value) :=
  Except.ok (.inl
    { st with
      reader := cls.2,
      heap := parentPush st.heap cur (.vAddr st.heap.length) ++ [cls.1],
      stack := st.heap.length :: st.stack,
      objects := objSet st.objects cls.1.objectId (.vAddr st.heap.length) })

/-- The `case 0x04 / 0x05` branch. -/
def handleClassWithMembers (r0 : Reader) (st : St) (cur : Option Nat) (isSystem : Bool) :
    Except Err (St ⊕ Value) :=
  classWithMembersCore (deserializeClassWithMembersAndTypes r0 isSystem) st cur

/-- State transformation of the `case 0x06 BinaryObjectString` branch:
register the string under its object id and push it onto the parent; with no
open parent the member push on `undefined` throws a TypeError. -/
def objectStringCore (oid : Int) (s : List Nat) (r2 : Reader) (st : St) (cur : Option Nat) :
    Except Err (St ⊕ Value) :=
  match cur with
  | some pa =>
    Except.ok (.inl
      { st with
        reader := r2,
        objects := objSet st.objects oid (.vStr s),
        heap := pushMember st.heap pa (.vStr s) })
  | none => .error .typeError

/-- The `case 0x06 BinaryObjectString` branch. -/
def handleObjectString (r0 : Reader) (st : St) (cur : Option Nat) : Except Err (St ⊕ Value) :=
  objectStringCore (read32 r0).1 (readLengthPrefixedString (read32 r0).2).1
    (readLengthPrefixedString (read32 r0).2).2 st cur

/-- State transformation of the `case 0x07 BinaryArray` branch:
`lengths.reduce((x, y) => x + y)` throws on an empty array (rank 0), and
`Array(totalLength)` throws a RangeError when the summed length is not a
valid array length; otherwise the synthetic composite (a homogeneous member
vector of `totalLength` item types) is registered and pushed, but never
appended to a parent. -/
def baComp (oid rank : Int) (lengths lowerBounds : List Int) (itemType : Int)
    (info : AddInfo) (total : Int) : Comp :=
  { objectId := oid, rank := some rank, lengths := lengths,
    lowerBounds := lowerBounds, itemType := some itemType,
    additionalInfos := List.replicate total.toNat info,
    memberValues := [],
    memberTypes := List.replicate total.toNat itemType }

def binaryArrayCore (oid rank : Int) (lengths lowerBounds : List Int) (itemType : Int)
    (info : AddInfo) (r7 : Reader) (st : St) : Except Err (St ⊕ Value) :=
  match lengths with
  | [] => .error .emptyReduce
  | l0 :: ls =>
    if ls.foldl (fun x y => x + y) l0 < 0 ∨ 4294967295 < ls.foldl (fun x y => x + y) l0 then
      .error .rangeError
    else
      Except.ok (.inl
        { st with
          reader := r7,
          objects := objSet st.objects oid (.vAddr st.heap.length),
          stack := st.heap.length :: st.stack,
          heap := st.heap ++
            [baComp oid rank lengths lowerBounds itemType info
              (ls.foldl (fun x y => x + y) l0)] })

def baOid (r0 : Reader) : Int := (read32 r0).1

def baAfterOid (r0 : Reader) : Reader := (read32 r0).2

def baBat (r0 : Reader) : Int := (read8 (baAfterOid r0)).1

def baAfterBat (r0 : Reader) : Reader := (read8 (baAfterOid r0)).2

def baRank (r0 : Reader) : Int := (read32 (baAfterBat r0)).1

def baAfterRank (r0 : Reader) : Reader := (read32 (baAfterBat r0)).2

def baLengths (r0 : Reader) : List Int × Reader :=
  readN read32 (baRank r0).toNat (baAfterRank r0)

def baLower (r0 : Reader) : List Int × Reader :=
  if baBat r0 > 2 then readN read32 (baRank r0).toNat (baLengths r0).2
  else ([], (baLengths r0).2)

def baItemType (r0 : Reader) : Int := (read8 (baLower r0).2).1

def baInfo (r0 : Reader) : AddInfo × Reader :=
  deserializeAdditionalTypeInfo (read8 (baLower r0).2).2 (baItemType r0)

/-- The `case 0x07 BinaryArray` branch: object id, array type byte, rank,
`rank` lengths, lower bounds iff the array type byte exceeds 2, item type and
its additional info. -/
def handleBinaryArray (r0 : Reader) (st : St) : Except Err (St ⊕ Value) :=
  binaryArrayCore (baOid r0) (baRank r0) (baLengths r0).1 (baLower r0).1 (baItemType r0)
    (baInfo r0).1 (baInfo r0).2 st

/-- State transformation of the `case 0x09 MemberReference` branch: record a
fix-up capturing the current composite and slot index and push a `{ref: id}`
placeholder; with no open parent the accesses on `undefined` throw. -/
def memberReferenceCore (refId : Int) (r1 : Reader) (st : St) (cur : Option Nat) :
    Except Err (St ⊕ Value) :=
  match cur with
  | some pa =>
    Except.ok (.inl
      { st with
        reader := r1,
        references := st.references ++
          [(pa, (heapGetD st.heap pa).memberValues.length, refId)],
        heap := pushMember st.heap pa (.vRef refId) })
  | none => .error .typeError

/-- The `case 0x09 MemberReference` branch. -/
def handleMemberReference (r0 : Reader) (st : St) (cur : Option Nat) :
    Except Err (St ⊕ Value) :=
  memberReferenceCore (read32 r0).1 (read32 r0).2 st cur

/-- The `case 0x0A ObjectNull` branch: push `null` onto the parent. -/
def handleObjectNull (st : St) (r0 : Reader) (cur : Option Nat) : Except Err (St ⊕ Value) :=
  match cur with
  | some pa => .ok (.inl { st with reader := r0, heap := pushMember st.heap pa .vNull })
  | none => .error .typeError

/-- The `case 0x0B MessageEnd` branch, before the final match: run every
queued fix-up in insertion order over the heap, take
`Object.values(state.objects)[0]` as the root and project it.  `fuel` bounds
the projection recursion; `none` models the unbounded recursion of
`mapMembers` on a cyclic graph. -/
def projectRoot (fuel : Nat) (st : St) : Option Value :=
  mapMembers (applyFixups st.heap st.objects st.references) fuel (rootValue st.objects)

/-- The `case 0x0B MessageEnd` branch. -/
def handleMessageEnd (fuel : Nat) (st : St) : Except Err (St ⊕ Value) :=
  match projectRoot fuel st with
  | some v => .ok (.inr v)
  | none => .error .overflow

/-- State transformation of the `case 0x0C BinaryLibraryRecord` branch. -/
def libraryCore (lib : (Int × List Nat) × Reader) (st : St) : Except Err (St ⊕ Value) :=
  .ok (.inl { st with reader := lib.2, libraries := st.libraries ++ [lib.1] })

/-- The `case 0x0C BinaryLibraryRecord` branch. -/
def handleLibrary (r0 : Reader) (st : St) : Except Err (St ⊕ Value) :=
  libraryCore (deserializeBinaryLibrary r0) st

/-- State transformation of the `case 0x0D ObjectNull256` branch: append
`count` null entries to the parent, with no bound check against the remaining
member slots. -/
def objectNull256Core (cnt : Int) (r1 : Reader) (st : St) (cur : Option Nat) :
    Except Err (St ⊕ Value) :=
  match cur with
  | some pa =>
    Except.ok (.inl
      { st with
        reader := r1,
        heap := pushMembers st.heap pa (List.replicate cnt.toNat .vNull) })
  | none => .error .typeError

/-- The `case 0x0D ObjectNull256` branch. -/
def handleObjectNull256 (r0 : Reader) (st : St) (cur : Option Nat) :
    Except Err (St ⊕ Value) :=
  objectNull256Core (read8 r0).1 (read8 r0).2 st cur

/-- The primitive-element loop of `case 0x0F ArraySinglePrimitive`. -/
def readPrims (ty : Int) : Nat → Reader → Except Err (List Value × Reader)
  | 0, r => .ok ([], r)
  | n + 1, r => do
    let v ← deserializePrimitiveType r ty
    let vs ← readPrims ty n v.2
    .ok (v.1 :: vs.1, vs.2)

/-- State transformation of the `case 0x0F ArraySinglePrimitive` branch: the
plain array is registered but neither pushed nor appended to a parent. -/
def arraySinglePrimitiveCore (oid : Int) (res : Except Err (List Value × Reader)) (st : St) :
    Except Err (St ⊕ Value) :=
  match res with
  | .error e => .error e
  | .ok arr =>
    Except.ok (.inl
      { st with
        reader := arr.2,
        objects := objSet st.objects oid (.vArr arr.1) })

/-- The `case 0x0F ArraySinglePrimitive` branch: object id, length, primitive
type, then `length` primitives. -/
def handleArraySinglePrimitive (r0 : Reader) (st : St) : Except Err (St ⊕ Value) :=
  arraySinglePrimitiveCore (read32 r0).1
    (readPrims (read8 (read32 (read32 r0).2).2).1 (read32 (read32 r0).2).1.toNat
      (read8 (read32 (read32 r0).2).2).2) st

/-- The record-tag switch of the main `deserialize` loop. -/
def dispatch (fuel : Nat) (st : St) (cur : Option Nat) : Except Err (St ⊕ Value) :=
  if (read8 st.reader).1 = 0 then handleHeader (read8 st.reader).2 st
  else if (read8 st.reader).1 = 1 then handleClassWithId (read8 st.reader).2 st cur
  else if (read8 st.reader).1 = 4 ∨ (read8 st.reader).1 = 5 then
    handleClassWithMembers (read8 st.reader).2 st cur ((read8 st.reader).1 = 4)
  else if (read8 st.reader).1 = 6 then handleObjectString (read8 st.reader).2 st cur
  else if (read8 st.reader).1 = 7 then handleBinaryArray (read8 st.reader).2 st
  else if (read8 st.reader).1 = 9 then handleMemberReference (read8 st.reader).2 st cur
  else if (read8 st.reader).1 = 10 then handleObjectNull st (read8 st.reader).2 cur
  else if (read8 st.reader).1 = 11 then handleMessageEnd fuel st
  else if (read8 st.reader).1 = 12 then handleLibrary (read8 st.reader).2 st
  else if (read8 st.reader).1 = 13 then handleObjectNull256 (read8 st.reader).2 st cur
  else if (read8 st.reader).1 = 15 then handleArraySinglePrimitive (read8 st.reader).2 st
  else .error (.unknownRecord (read8 st.reader).1)

/-- State transformation of the inline primitive member fill. -/
def fillCore (res : Except Err (Value × Reader)) (st : St) (a : Nat) :
    Except Err (St ⊕ Value) :=
  match res with
  | .error e => .error e
  | .ok vr =>
    Except.ok (.inl { st with reader := vr.2, heap := pushMember st.heap a vr.1 })

/-- One iteration of the `while (true)` loop in `deserialize`: fill the next
primitive member slot of the innermost open composite, pop a completed
composite, or read and dispatch one record tag (passing the open composite,
when any, as the parent). -/
def iter (fuel : Nat) (st : St) : Except Err (St ⊕ Value) :=
  match st.stack with
  | a :: rest =>
    if (heapGetD st.heap a).memberValues.length < (heapGetD st.heap a).memberTypes.length then
      if (heapGetD st.heap a).memberTypes.getD (heapGetD st.heap a).memberValues.length 0 = 0 then
        fillCore
          (deserializePrimitiveTypeOfInfo st.reader
            ((heapGetD st.heap a).additionalInfos.getD
              (heapGetD st.heap a).memberValues.length .undef)) st a
      else dispatch fuel st (some a)
    else .ok (.inl { st with stack := rest })
  | [] => dispatch fuel st none

/-- The outcome of a bounded run of the main loop: the state at the
`MessageEnd` iteration together with the returned value, a thrown error, or
fuel exhaustion (the loop did not finish within the given bound). -/
inductive RunResult where
  | ok (st : St) (v : Value)
  | err (e : Err)
  | fuelOut
deriving Repr

/-- Run the main loop for at most `fuel` iterations. -/
def run : Nat → St → RunResult
  | 0, _ => .fuelOut
  | fuel + 1, st =>
    match iter (fuel + 1) st with
    | .error e => .err e
    | .ok (.inl st1) => run fuel st1
    | .ok (.inr v) => .ok st v

/-- Run `n` iterations and expose the intermediate state (used to inspect the
parser mid-stream in theorem statements). -/
def iterN (fuel : Nat) : Nat → St → Except Err (St ⊕ Value)
  | 0, st => .ok (.inl st)
  | n + 1, st =>
    match iter fuel st with
    | .error e => .error e
    | .ok (.inl st1) => iterN fuel n st1
    | .ok (.inr v) => .ok (.inr v)

/-- The fresh state of one `deserialize` call. -/
def initSt (bytes : List Nat) : St :=
  { reader := ⟨bytes, 0⟩, libraries := [], objects := [], references := [],
    stack := [], heap := [], header := none }

/-- `deserialize` from src/index.js: the `bitReader` constructor rejects an
input whose first byte is not zero, then the main loop runs until
`MessageEnd` returns a projection or a record throws. -/
def deserialize (fuel : Nat) (bytes : List Nat) : RunResult :=
  match bytes.head? with
  | some 0 => run fuel (initSt bytes)
  | _ => .err .invalidHeader

/-- The raw bytes consumed by the varint loop: at most `n` bytes starting at
byte position `p`, cut just after the first byte whose continuation (top) bit
is clear. -/
def varGroupsAux (bytes : List Nat) (p : Nat) : Nat → List Nat
  | 0 => []
  | n + 1 =>
    if bytes.getD p 0 < 128 then [bytes.getD p 0]
    else bytes.getD p 0 :: varGroupsAux bytes (p + 1) n

/-- The bytes consumed by `readVarLen` at byte position `p` (up to five). -/
def varGroups (bytes : List Nat) (p : Nat) : List Nat := varGroupsAux bytes p 5

/-- The length value the varint loop accumulates from its groups: the low
seven bits of each consumed byte, shifted with the 32-bit JavaScript shift by
seven bits per position. -/
def varLenJS : List Nat → Nat → Int
  | [], _ => 0
  | g :: gs, i => jsShl ((g % 128 : Nat) : Int) (7 * i) + varLenJS gs (i + 1)

/-- Modelled from the spec: the length obtained by concatenating the 7-bit
groups low-to-high with exact arithmetic ("concatenate groups low-to-high to
form a length L"), used as the comparison point for the implemented
`varLenJS` accumulation. -/
def varLenSpecAux : List Nat → Nat → Nat
  | [], _ => 0
  | g :: gs, i => g % 128 * 2 ^ (7 * i) + varLenSpecAux gs (i + 1)

/-- Modelled from the spec: exact low-to-high group concatenation. -/
def varLenSpec (gs : List Nat) : Nat := varLenSpecAux gs 0

/-- The member-count bound for one composite: `memberValues.length` does not
exceed `memberTypes.length`. -/
def compOk (heap : List Comp) (a : Nat) : Prop :=
  (heapGetD heap a).memberValues.length ≤ (heapGetD heap a).memberTypes.length

instance (heap : List Comp) (a : Nat) : Decidable (compOk heap a) :=
  inferInstanceAs (Decidable (_ ≤ _))

/-- The claimed parsing invariant: every composite on the open-object stack
satisfies the member-count bound. -/
def stackOk (st : St) : Prop := ∀ a ∈ st.stack, compOk st.heap a

instance (st : St) : Decidable (stackOk st) :=
  inferInstanceAs (Decidable (∀ a ∈ st.stack, compOk st.heap a))

/-- The member slots the `mapMembers` loop reads: `n` successive
`memberValues.getD` lookups starting at index `idx` (out-of-range slots read
as `undefined`). -/
def slots (values : List Value) : Nat → Nat → List Value
  | _, 0 => []
  | idx, n + 1 => values.getD idx .vUndefined :: slots values (idx + 1) n

/-- A concrete stream: header, a class record with object id 3 (one int32
member `a` with value 42), a class record with object id 2 (one int32 member
`b` with value 7), MessageEnd. -/
def c1Bytes : List Nat :=
  [0] ++ List.replicate 16 0 ++
  [4, 3, 0, 0, 0, 1, 67, 1, 0, 0, 0, 1, 97, 0, 8] ++ [42, 0, 0, 0] ++
  [4, 2, 0, 0, 0, 1, 68, 1, 0, 0, 0, 1, 98, 0, 8] ++ [7, 0, 0, 0] ++ [11]

/-- The state of the `MessageEnd` iteration of `deserialize 20 c1Bytes`. -/
def c1St : St :=
  { reader := ⟨c1Bytes, 440⟩,
    libraries := [],
    objects := [(3, .vAddr 0), (2, .vAddr 1)],
    references := [],
    stack := [],
    heap := [{ objectId := 3, name := [67], memberNames := [[97]], memberTypes := [0],
               additionalInfos := [.prim 8], memberValues := [.vInt 42] },
             { objectId := 2, name := [68], memberNames := [[98]], memberTypes := [0],
               additionalInfos := [.prim 8], memberValues := [.vInt 7] }],
    header := some (0, 0, 0, 0) }

/-- A concrete stream: header, then a class record with object id 1 and one
member `a` of primitive type sbyte (member type 0, additional info 10). -/
def c2Bytes : List Nat :=
  [0] ++ List.replicate 16 0 ++
  [4, 1, 0, 0, 0, 1, 67, 1, 0, 0, 0, 1, 97, 0, 10]

/-- A concrete stream: header, a class record with object id 1 and a single
member `s` of class kind (member type 1), then ObjectNull256 with count 2. -/
def c3Bytes : List Nat :=
  [0] ++ List.replicate 16 0 ++
  [4, 1, 0, 0, 0, 1, 67, 1, 0, 0, 0, 1, 115, 1] ++ [13, 2]

/-- The state after three iterations of the main loop on `c3Bytes`: the open
composite has two member values pushed into its single member slot. -/
def c3St : St :=
  { reader := ⟨c3Bytes, 264⟩,
    libraries := [],
    objects := [(1, .vAddr 0)],
    references := [],
    stack := [0],
    heap := [{ objectId := 1, name := [67], memberNames := [[115]], memberTypes := [1],
               additionalInfos := [.nullInfo], memberValues := [.vNull, .vNull] }],
    header := some (0, 0, 0, 0) }

/-- The state after one iteration of the main loop on the single byte `0x00`:
the header has been recorded, everything else is untouched. -/
def c3HdrSt : St :=
  { reader := ⟨[0], 136⟩, libraries := [], objects := [], references := [],
    stack := [], heap := [], header := some (0, 0, 0, 0) }

/-- A state whose single open composite has no member slots at all, so the
next iteration pops it. -/
def c3PopSt : St :=
  { reader := ⟨[], 0⟩, libraries := [], objects := [], references := [],
    stack := [0], heap := [{}], header := none }

/-- A concrete stream: header, a class record with object id 1 and one
class-kind member `m`, a MemberReference to the never-registered id 99, and
MessageEnd. -/
def c6Bytes : List Nat :=
  [0] ++ List.replicate 16 0 ++
  [4, 1, 0, 0, 0, 1, 67, 1, 0, 0, 0, 1, 109, 1] ++ [9, 99, 0, 0, 0] ++ [11]

/-- The state of the `MessageEnd` iteration of `deserialize 20 c6Bytes`: one
queued fix-up whose referenced id 99 is absent from the object table. -/
def c6St : St :=
  { reader := ⟨c6Bytes, 288⟩,
    libraries := [],
    objects := [(1, .vAddr 0)],
    references := [(0, 0, 99)],
    stack := [],
    heap := [{ objectId := 1, name := [67], memberNames := [[109]], memberTypes := [1],
               additionalInfos := [.nullInfo], memberValues := [.vRef 99] }],
    header := some (0, 0, 0, 0) }

/-- A one-member heap used to exercise `applyFixup` on a dangling id. -/
def c6Heap : List Comp := [{ memberValues := [.vRef 9] }]

/-- A state with one registered class descriptor (object id 5, stored at heap
address 0, one recorded member value). -/
def c9St : St :=
  { reader := ⟨[], 0⟩, libraries := [], objects := [(5, .vAddr 0)], references := [],
    stack := [], heap := [{ objectId := 5, memberValues := [.vInt 1] }], header := none }

/-- The state `classWithIdCore 7 5` produces from `c9St`: the descriptor is
cloned to address 1 with fresh `memberValues` and object id 7; the original
entry and composite are untouched. -/
def c9CloneSt : St :=
  { reader := ⟨[], 0⟩, libraries := [],
    objects := [(5, .vAddr 0), (7, .vAddr 1)], references := [],
    stack := [1],
    heap := [{ objectId := 5, memberValues := [.vInt 1] }, { objectId := 7 }],
    header := none }

/-- The state `classWithIdCore 5 5` produces from `c9St`: with
`objectId = metadataId` the object-table entry under the metadata id is
redirected to the clone at address 1. -/
def c9DupSt : St :=
  { reader := ⟨[], 0⟩, libraries := [],
    objects := [(5, .vAddr 1)], references := [],
    stack := [1],
    heap := [{ objectId := 5, memberValues := [.vInt 1] }, { objectId := 5 }],
    header := none }

/-- A heap for projecting a plain two-member composite. -/
def c5Heap : List Comp :=
  [{ memberNames := [[97], [98]], memberTypes := [0, 0],
     memberValues := [.vInt 1, .vInt 2] }]

/-- A heap whose composite carries an `_items` member, which collapses. -/
def c5ItemsHeap : List Comp :=
  [{ memberNames := [itemsName], memberTypes := [1],
     memberValues := [.vArr [.vInt 1, .vInt 2, .vInt 3]] }]

/-- The raw bytes of a `BinaryArray` record body with rank zero: object id 1,
array type 0, rank 0, no lengths, item type 1. -/
def c10Reader : Reader := ⟨[1, 0, 0, 0, 1, 0, 0, 0, 0, 1], 0⟩

/-- jsToUInt32 yields a value in [0, 2^32). -/
theorem jsToUInt32_nonneg (x : Int) : 0 ≤ jsToUInt32 x :=
  Int.emod_nonneg x (by norm_num)

theorem jsToUInt32_lt (x : Int) : jsToUInt32 x < 4294967296 :=
  Int.emod_lt_of_pos x (by norm_num)

theorem jsToUInt32_of_small {x : Int} (h0 : 0 ≤ x) (h1 : x < 4294967296) :
    jsToUInt32 x = x :=
  Int.emod_eq_of_lt h0 h1

theorem jsToInt32_of_small {x : Int} (h0 : 0 ≤ x) (h1 : x < 2147483648) :
    jsToInt32 x = x := by
  unfold jsToInt32
  rw [jsToUInt32_of_small h0 (lt_trans h1 (by norm_num))]
  simp [h1]

theorem jsToInt32_emod (x : Int) : jsToInt32 x % 4294967296 = x % 4294967296 := by
  unfold jsToInt32 jsToUInt32
  split
  · exact Int.emod_emod_of_dvd x dvd_rfl
  · rw [Int.sub_emod, Int.emod_self, Int.emod_emod_of_dvd x dvd_rfl, sub_zero,
      Int.emod_emod_of_dvd x dvd_rfl]

theorem jsToInt32_congr {x y : Int} (h : x % 4294967296 = y % 4294967296) :
    jsToInt32 x = jsToInt32 y := by
  unfold jsToInt32 jsToUInt32
  rw [h]

theorem jsToInt32_jsToInt32 (x : Int) : jsToInt32 (jsToInt32 x) = jsToInt32 x :=
  jsToInt32_congr (jsToInt32_emod x)

theorem jsToInt32_lb (x : Int) : -2147483648 ≤ jsToInt32 x := by
  unfold jsToInt32
  have h0 := jsToUInt32_nonneg x
  have h1 := jsToUInt32_lt x
  split <;> omega

theorem jsToInt32_ub (x : Int) : jsToInt32 x < 2147483648 := by
  unfold jsToInt32
  have h0 := jsToUInt32_nonneg x
  have h1 := jsToUInt32_lt x
  split <;> omega

theorem jsToInt32_add_right (a y : Int) :
    jsToInt32 (a + jsToInt32 y) = jsToInt32 (a + y) :=
  jsToInt32_congr (by rw [Int.add_emod, jsToInt32_emod, ← Int.add_emod])

theorem jsShl_of_small {a : Int} {s : Nat} (hs : s < 32) (h0 : 0 ≤ a)
    (h1 : a * 2 ^ s < 2147483648) : jsShl a s = a * 2 ^ s := by
  unfold jsShl
  rw [Nat.mod_eq_of_lt hs]
  have hp : (0 : Int) < 2 ^ s := by positivity
  have ha : a < 2147483648 := by
    have : a ≤ a * 2 ^ s := le_mul_of_one_le_right h0 (by omega)
    omega
  rw [jsToInt32_of_small h0 ha]
  exact jsToInt32_of_small (mul_nonneg h0 (by positivity)) h1

theorem jsShl_zero_left (s : Nat) : jsShl 0 s = 0 := by
  unfold jsShl
  rw [jsToInt32_of_small le_rfl (by norm_num), zero_mul,
    jsToInt32_of_small le_rfl (by norm_num)]

theorem jsAnd_mask_small {a : Int} {n : Nat} (ha0 : 0 ≤ a) (ha : a < 4294967296)
    (hn : n ≤ 31) : jsAnd a (2 ^ n - 1) = a % 2 ^ n := by
  unfold jsAnd
  have hp : (0 : Int) < 2 ^ n := by positivity
  have hmask0 : (0 : Int) ≤ 2 ^ n - 1 := by omega
  have hmaskN : (2 : Int) ^ n - 1 < 4294967296 := by
    have : (2 : Int) ^ n ≤ 2 ^ 31 := pow_le_pow_right₀ (by norm_num) hn
    omega
  rw [jsToUInt32_of_small ha0 ha, jsToUInt32_of_small hmask0 hmaskN]
  have htn : ((2 : Int) ^ n - 1).toNat = 2 ^ n - 1 := by
    have h4 : ((2 ^ n : Nat) : Int) = (2 : Int) ^ n := by push_cast; ring
    omega
  have hland : ∀ x y : Nat, Nat.land x y = x &&& y := fun _ _ => rfl
  rw [htn, hland, Nat.and_pow_two_sub_one_eq_mod]
  have hnp : (0 : Nat) < 2 ^ n := by positivity
  have hlt : a.toNat % 2 ^ n < 2147483648 := by
    have h2 : a.toNat % 2 ^ n < 2 ^ n := Nat.mod_lt _ hnp
    have h3 : (2 : Nat) ^ n ≤ 2 ^ 31 := Nat.pow_le_pow_right (by norm_num) hn
    omega
  rw [jsToInt32_of_small (by positivity) (by exact_mod_cast hlt)]
  have hcast : (a.toNat : Int) = a := Int.toNat_of_nonneg ha0
  push_cast
  rw [hcast]

theorem jsAnd_full (a : Int) : jsAnd a 4294967295 = jsToInt32 a := by
  unfold jsAnd
  have h255 : jsToUInt32 4294967295 = 4294967295 :=
    jsToUInt32_of_small (by norm_num) (by norm_num)
  rw [h255]
  have h0 := jsToUInt32_nonneg a
  have h1 := jsToUInt32_lt a
  have hmask : (4294967295 : Int).toNat = 2 ^ 32 - 1 := by decide
  have hland : ∀ x y : Nat, Nat.land x y = x &&& y := fun _ _ => rfl
  rw [hmask, hland, Nat.and_pow_two_sub_one_eq_mod]
  have hlt : (jsToUInt32 a).toNat < 2 ^ 32 := by omega
  rw [Nat.mod_eq_of_lt hlt]
  rw [Int.toNat_of_nonneg h0]
  exact jsToInt32_congr (by unfold jsToUInt32; exact Int.emod_emod_of_dvd a dvd_rfl)

theorem jsShr_zero (a : Int) : jsShr a 0 = jsToInt32 a := by
  unfold jsShr
  norm_num [Int.fdiv_one]

theorem jsAnd_zero_left (b : Int) : jsAnd 0 b = 0 := by
  unfold jsAnd
  have h0 : jsToUInt32 0 = 0 := jsToUInt32_of_small le_rfl (by norm_num)
  rw [h0]
  have hland : Nat.land (0 : Int).toNat (jsToUInt32 b).toNat = 0 := by
    have : (0 : Int).toNat = 0 := rfl
    rw [this]
    exact Nat.zero_and _
  rw [hland]
  exact jsToInt32_of_small le_rfl (by norm_num)

theorem reduceAux_zeros {l : List Nat} (hz : ∀ b ∈ l, b = 0) (k : Nat) :
    reduceAux l k = 0 := by
  induction l generalizing k with
  | nil => rfl
  | cons b rest ih =>
    have hb : b = 0 := hz b (List.mem_cons_self b rest)
    have hr : ∀ x ∈ rest, x = 0 := fun x hx => hz x (List.mem_cons_of_mem b hx)
    show jsShl ((b : Nat) : Int) (8 * k) + reduceAux rest (k + 1) = 0
    rw [hb, ih hr]
    simp [jsShl_zero_left]

theorem getD_drop (bytes : List Nat) (m i : Nat) :
    (bytes.drop m).getD i 0 = bytes.getD (m + i) 0 := by
  simp [List.getD_eq_getElem?_getD, List.getElem?_drop]

/-- `read` with the let bindings flattened. -/
theorem read_def (r : Reader) (bits : Nat) :
    read r bits =
      (jsAnd (jsShr (reduceAux (jsSlice r.bytes (r.bit / 8) ((r.bit + bits + 7) / 8)) 0)
        (r.bit % 8)) (jsMask bits), ⟨r.bytes, r.bit + bits⟩) := rfl

/-- A `read` whose slice covers only zero bytes (in particular any read past
the end of the input) yields 0 and just advances the cursor. -/
theorem read_zeros (bytes : List Nat) (bit n : Nat)
    (hz : ∀ b ∈ bytes, b = 0) (ha : bit % 8 = 0) :
    read ⟨bytes, bit⟩ n = (0, ⟨bytes, bit + n⟩) := by
  rw [read_def]
  unfold jsSlice
  have hsl : ∀ b ∈ (bytes.drop (bit / 8)).take ((bit + n + 7) / 8 - bit / 8), b = 0 :=
    fun b hbm => hz b (List.mem_of_mem_drop (List.mem_of_mem_take hbm))
  rw [reduceAux_zeros hsl, ha]
  have hshr : jsShr 0 0 = 0 := by
    rw [jsShr_zero]
    exact jsToInt32_of_small le_rfl (by norm_num)
  rw [hshr, jsAnd_zero_left]

theorem byteCast_lt31 {b : Nat} (hb : b < 256) : ((b : Nat) : Int) < 2147483648 := by
  have h : (b : Int) < 256 := by exact_mod_cast hb
  omega

theorem byteCast_lt32 {b : Nat} (hb : b < 256) : ((b : Nat) : Int) < 4294967296 := by
  have h : (b : Int) < 256 := by exact_mod_cast hb
  omega

/-- A byte-aligned `read` delivers the advanced cursor in its second
component. -/
theorem read_snd (r : Reader) (bits : Nat) :
    (read r bits).2 = ⟨r.bytes, r.bit + bits⟩ := by
  rw [read_def]

/-- The value component of `read` with the let bindings flattened. -/
theorem read_fst (r : Reader) (bits : Nat) :
    (read r bits).1 =
      jsAnd (jsShr (reduceAux (jsSlice r.bytes (r.bit / 8) ((r.bit + bits + 7) / 8)) 0)
        (r.bit % 8)) (jsMask bits) := by
  rw [read_def]

/-- A byte-aligned `read` of at most eight bits delivers the low `n` bits of
the next byte (reading 0 past the end of the input). -/
theorem read_byte_aligned_fst (bytes : List Nat) (m n : Nat)
    (hb : ∀ x ∈ bytes, x < 256) (hn1 : 1 ≤ n) (hn8 : n ≤ 8) :
    (read ⟨bytes, 8 * m⟩ n).1 = ((bytes.getD m 0 % 2 ^ n : Nat) : Int) := by
  rw [read_def]
  unfold jsSlice
  have hsb : 8 * m / 8 = m := by omega
  have heb : (8 * m + n + 7) / 8 = m + 1 := by omega
  have hmod : 8 * m % 8 = 0 := by omega
  have htake : m + 1 - m = 1 := by omega
  rw [hsb, heb, hmod, htake]
  have hmask : jsMask n = 2 ^ n - 1 := by
    unfold jsMask
    have hn : n ≠ 64 := by omega
    simp [hn]
  rcases hdrop : bytes.drop m with _ | ⟨b, rest⟩
  · have hg : bytes.getD m 0 = 0 := by
      have hlen : bytes.length ≤ m := by
        have h := congrArg List.length hdrop
        simp at h
        omega
      simp [List.getD_eq_getElem?_getD, List.getElem?_eq_none hlen]
    have hshr : jsShr 0 0 = 0 := by
      rw [jsShr_zero]
      exact jsToInt32_of_small le_rfl (by norm_num)
    rw [hg]
    simp [reduceAux, hshr, jsAnd_zero_left]
  · have hbm : b < 256 := hb b (List.mem_of_mem_drop (hdrop ▸ List.mem_cons_self b rest))
    have hg : bytes.getD m 0 = b := by
      have h := getD_drop bytes m 0
      rw [hdrop] at h
      simpa using h.symm
    have hred : reduceAux [b] 0 = (b : Int) := by
      show jsShl ((b : Nat) : Int) (8 * 0) + reduceAux [] 1 = (b : Int)
      rw [jsShl_of_small (by norm_num) (Int.natCast_nonneg b)
        (by have h := byteCast_lt31 hbm; norm_num; omega)]
      show (b : Int) * 2 ^ (8 * 0) + 0 = (b : Int)
      norm_num
    have hshr : jsShr (b : Int) 0 = (b : Int) := by
      rw [jsShr_zero]
      exact jsToInt32_of_small (Int.natCast_nonneg b) (byteCast_lt31 hbm)
    have hand : jsAnd (b : Int) (2 ^ n - 1) = (b : Int) % 2 ^ n :=
      jsAnd_mask_small (Int.natCast_nonneg b) (byteCast_lt32 hbm) (by omega)
    have hc : ((b % 2 ^ n : Nat) : Int) = (b : Int) % 2 ^ n := by push_cast; ring
    have h1 : (b :: rest).take 1 = [b] := rfl
    rw [hg, h1, hred, hshr, hmask, hand, hc]

/-- Component-assembled form of `read_byte_aligned_fst`. -/
theorem read_byte_aligned (bytes : List Nat) (m n : Nat)
    (hb : ∀ x ∈ bytes, x < 256) (hn1 : 1 ≤ n) (hn8 : n ≤ 8) :
    read ⟨bytes, 8 * m⟩ n =
      (((bytes.getD m 0 % 2 ^ n : Nat) : Int), ⟨bytes, 8 * m + n⟩) := by
  have h1 := read_byte_aligned_fst bytes m n hb hn1 hn8
  have h2 := read_snd ⟨bytes, 8 * m⟩ n
  exact Prod.ext h1 h2

/-- The continuation-bit read of the varint loop: one bit at offset 7 within
the current byte delivers that byte's top bit. -/
theorem read_cont_bit_fst (bytes : List Nat) (m : Nat) (hb : ∀ x ∈ bytes, x < 256) :
    (read ⟨bytes, 8 * m + 7⟩ 1).1 = ((bytes.getD m 0 / 128 : Nat) : Int) := by
  rw [read_def]
  unfold jsSlice
  have hsb : (8 * m + 7) / 8 = m := by omega
  have heb : (8 * m + 7 + 1 + 7) / 8 = m + 1 := by omega
  have hmod : (8 * m + 7) % 8 = 7 := by omega
  have htake : m + 1 - m = 1 := by omega
  rw [hsb, heb, hmod, htake]
  have hmask : jsMask 1 = 2 ^ 1 - 1 := by norm_num [jsMask]
  rcases hdrop : bytes.drop m with _ | ⟨b, rest⟩
  · have hg : bytes.getD m 0 = 0 := by
      have hlen : bytes.length ≤ m := by
        have h := congrArg List.length hdrop
        simp at h
        omega
      simp [List.getD_eq_getElem?_getD, List.getElem?_eq_none hlen]
    have hshr : jsShr 0 7 = 0 := by
      unfold jsShr
      rw [jsToInt32_of_small le_rfl (by norm_num)]
      norm_num
    rw [hg]
    simp [reduceAux, hshr, jsAnd_zero_left]
  · have hbm : b < 256 := hb b (List.mem_of_mem_drop (hdrop ▸ List.mem_cons_self b rest))
    have hg : bytes.getD m 0 = b := by
      have h := getD_drop bytes m 0
      rw [hdrop] at h
      simpa using h.symm
    have hred : reduceAux [b] 0 = (b : Int) := by
      show jsShl ((b : Nat) : Int) (8 * 0) + reduceAux [] 1 = (b : Int)
      rw [jsShl_of_small (by norm_num) (Int.natCast_nonneg b)
        (by have h := byteCast_lt31 hbm; norm_num; omega)]
      show (b : Int) * 2 ^ (8 * 0) + 0 = (b : Int)
      norm_num
    have hshr : jsShr (b : Int) 7 = ((b / 128 : Nat) : Int) := by
      unfold jsShr
      rw [jsToInt32_of_small (Int.natCast_nonneg b) (byteCast_lt31 hbm)]
      have h7 : (7 : Nat) % 32 = 7 := by norm_num
      rw [h7, Int.fdiv_eq_ediv _ (by norm_num)]
      push_cast
      norm_num
    have hand : jsAnd ((b / 128 : Nat) : Int) (2 ^ 1 - 1) = ((b / 128 : Nat) : Int) := by
      have hd : b / 128 < 256 := by omega
      rw [jsAnd_mask_small (Int.natCast_nonneg _) (byteCast_lt32 hd) (by omega)]
      have hlt : (((b / 128 : Nat)) : Int) < 2 ^ 1 := by
        have h2 : b / 128 < 2 := by omega
        exact_mod_cast h2
      rw [Int.emod_eq_of_lt (Int.natCast_nonneg _) hlt]
    have h1 : (b :: rest).take 1 = [b] := rfl
    rw [hg, h1, hred, hshr, hmask, hand]

/-- Component-assembled form of `read_cont_bit_fst`. -/
theorem read_cont_bit (bytes : List Nat) (m : Nat) (hb : ∀ x ∈ bytes, x < 256) :
    read ⟨bytes, 8 * m + 7⟩ 1 =
      (((bytes.getD m 0 / 128 : Nat) : Int), ⟨bytes, 8 * m + 8⟩) := by
  have h1 := read_cont_bit_fst bytes m hb
  have h2 := read_snd ⟨bytes, 8 * m + 7⟩ 1
  have hbit : 8 * m + 7 + 1 = 8 * m + 8 := by omega
  rw [hbit] at h2
  exact Prod.ext h1 h2

theorem reduceAux_nil (k : Nat) : reduceAux [] k = 0 := rfl

theorem reduceAux_cons (b : Nat) (l : List Nat) (k : Nat) :
    reduceAux (b :: l) k = jsShl ((b : Nat) : Int) (8 * k) + reduceAux l (k + 1) := rfl

/-- A byte-aligned 32-bit read delivers the signed (ToInt32) value of the
next four bytes taken little-endian (missing bytes past the end read as 0). -/
theorem read32_aligned_fst (bytes : List Nat) (m : Nat) (hb : ∀ x ∈ bytes, x < 256) :
    (read ⟨bytes, 8 * m⟩ 32).1 =
      jsToInt32 ((bytes.getD m 0 : Int) + (bytes.getD (m + 1) 0 : Int) * 256 +
        (bytes.getD (m + 2) 0 : Int) * 65536 + (bytes.getD (m + 3) 0 : Int) * 16777216) := by
  rw [read_fst]
  unfold jsSlice
  have hsb : 8 * m / 8 = m := by omega
  have heb : (8 * m + 32 + 7) / 8 = m + 4 := by omega
  have hmod : 8 * m % 8 = 0 := by omega
  have htake : m + 4 - m = 4 := by omega
  rw [hsb, heb, hmod, htake]
  have hmask : jsMask 32 = 4294967295 := by norm_num [jsMask]
  rw [hmask, jsShr_zero, jsAnd_full, jsToInt32_jsToInt32]
  have hshl0 : ∀ b : Nat, b < 256 → jsShl (b : Int) (8 * 0) = (b : Int) := by
    intro b hbm
    rw [jsShl_of_small (by norm_num) (Int.natCast_nonneg b)
      (by have h : (b : Int) < 256 := by exact_mod_cast hbm
          norm_num
          omega)]
    norm_num
  have hshl1 : ∀ b : Nat, b < 256 → jsShl (b : Int) (8 * 1) = (b : Int) * 256 := by
    intro b hbm
    rw [jsShl_of_small (by norm_num) (Int.natCast_nonneg b)
      (by have h : (b : Int) < 256 := by exact_mod_cast hbm
          norm_num
          omega)]
    norm_num
  have hshl2 : ∀ b : Nat, b < 256 → jsShl (b : Int) (8 * 2) = (b : Int) * 65536 := by
    intro b hbm
    rw [jsShl_of_small (by norm_num) (Int.natCast_nonneg b)
      (by have h : (b : Int) < 256 := by exact_mod_cast hbm
          norm_num
          omega)]
    norm_num
  have hshl3 : ∀ b : Nat, b < 256 →
      jsShl (b : Int) (8 * 3) = jsToInt32 ((b : Int) * 16777216) := by
    intro b hbm
    unfold jsShl
    rw [jsToInt32_of_small (Int.natCast_nonneg b) (byteCast_lt31 hbm)]
    norm_num
  rcases hdrop : bytes.drop m with _ | ⟨b0, l1⟩
  · have hlen : bytes.length ≤ m := by
      have h := congrArg List.length hdrop
      simp at h
      omega
    have hg0 : bytes.getD m 0 = 0 := by
      simp [List.getD_eq_getElem?_getD, List.getElem?_eq_none (by omega : bytes.length ≤ m)]
    have hg1 : bytes.getD (m + 1) 0 = 0 := by
      simp [List.getD_eq_getElem?_getD, List.getElem?_eq_none (by omega : bytes.length ≤ m + 1)]
    have hg2 : bytes.getD (m + 2) 0 = 0 := by
      simp [List.getD_eq_getElem?_getD, List.getElem?_eq_none (by omega : bytes.length ≤ m + 2)]
    have hg3 : bytes.getD (m + 3) 0 = 0 := by
      simp [List.getD_eq_getElem?_getD, List.getElem?_eq_none (by omega : bytes.length ≤ m + 3)]
    have ht : List.take 4 ([] : List Nat) = [] := rfl
    rw [hg0, hg1, hg2, hg3, ht, reduceAux_nil]
    norm_num
  rcases l1 with _ | ⟨b1, l2⟩
  · have hlen : bytes.length = m + 1 := by
      have h := congrArg List.length hdrop
      simp at h
      omega
    have hm0 : b0 ∈ bytes.drop m := by rw [hdrop]; simp
    have hb0 : b0 < 256 := hb b0 (List.mem_of_mem_drop hm0)
    have hg0 : bytes.getD m 0 = b0 := by
      have h := getD_drop bytes m 0
      rw [hdrop] at h
      simpa using h.symm
    have hg1 : bytes.getD (m + 1) 0 = 0 := by
      simp [List.getD_eq_getElem?_getD, List.getElem?_eq_none (by omega : bytes.length ≤ m + 1)]
    have hg2 : bytes.getD (m + 2) 0 = 0 := by
      simp [List.getD_eq_getElem?_getD, List.getElem?_eq_none (by omega : bytes.length ≤ m + 2)]
    have hg3 : bytes.getD (m + 3) 0 = 0 := by
      simp [List.getD_eq_getElem?_getD, List.getElem?_eq_none (by omega : bytes.length ≤ m + 3)]
    have ht : List.take 4 [b0] = [b0] := rfl
    rw [hg0, hg1, hg2, hg3, ht, reduceAux_cons, reduceAux_nil, hshl0 b0 hb0]
    exact congrArg jsToInt32 (by push_cast; ring)
  rcases l2 with _ | ⟨b2, l3⟩
  · have hlen : bytes.length = m + 2 := by
      have h := congrArg List.length hdrop
      simp at h
      omega
    have hm0 : b0 ∈ bytes.drop m := by rw [hdrop]; simp
    have hm1 : b1 ∈ bytes.drop m := by rw [hdrop]; simp
    have hb0 : b0 < 256 := hb b0 (List.mem_of_mem_drop hm0)
    have hb1 : b1 < 256 := hb b1 (List.mem_of_mem_drop hm1)
    have hg0 : bytes.getD m 0 = b0 := by
      have h := getD_drop bytes m 0
      rw [hdrop] at h
      simpa using h.symm
    have hg1 : bytes.getD (m + 1) 0 = b1 := by
      have h := getD_drop bytes m 1
      rw [hdrop] at h
      simpa using h.symm
    have hg2 : bytes.getD (m + 2) 0 = 0 := by
      simp [List.getD_eq_getElem?_getD, List.getElem?_eq_none (by omega : bytes.length ≤ m + 2)]
    have hg3 : bytes.getD (m + 3) 0 = 0 := by
      simp [List.getD_eq_getElem?_getD, List.getElem?_eq_none (by omega : bytes.length ≤ m + 3)]
    have ht : List.take 4 [b0, b1] = [b0, b1] := rfl
    rw [hg0, hg1, hg2, hg3, ht, reduceAux_cons, reduceAux_cons, reduceAux_nil,
      hshl0 b0 hb0, hshl1 b1 hb1]
    exact congrArg jsToInt32 (by push_cast; ring)
  rcases l3 with _ | ⟨b3, l4⟩
  · have hlen : bytes.length = m + 3 := by
      have h := congrArg List.length hdrop
      simp at h
      omega
    have hm0 : b0 ∈ bytes.drop m := by rw [hdrop]; simp
    have hm1 : b1 ∈ bytes.drop m := by rw [hdrop]; simp
    have hm2 : b2 ∈ bytes.drop m := by rw [hdrop]; simp
    have hb0 : b0 < 256 := hb b0 (List.mem_of_mem_drop hm0)
    have hb1 : b1 < 256 := hb b1 (List.mem_of_mem_drop hm1)
    have hb2 : b2 < 256 := hb b2 (List.mem_of_mem_drop hm2)
    have hg0 : bytes.getD m 0 = b0 := by
      have h := getD_drop bytes m 0
      rw [hdrop] at h
      simpa using h.symm
    have hg1 : bytes.getD (m + 1) 0 = b1 := by
      have h := getD_drop bytes m 1
      rw [hdrop] at h
      simpa using h.symm
    have hg2 : bytes.getD (m + 2) 0 = b2 := by
      have h := getD_drop bytes m 2
      rw [hdrop] at h
      simpa using h.symm
    have hg3 : bytes.getD (m + 3) 0 = 0 := by
      simp [List.getD_eq_getElem?_getD, List.getElem?_eq_none (by omega : bytes.length ≤ m + 3)]
    have ht : List.take 4 [b0, b1, b2] = [b0, b1, b2] := rfl
    rw [hg0, hg1, hg2, hg3, ht, reduceAux_cons, reduceAux_cons, reduceAux_cons, reduceAux_nil,
      hshl0 b0 hb0, hshl1 b1 hb1, hshl2 b2 hb2]
    exact congrArg jsToInt32 (by push_cast; ring)
  · have hm0 : b0 ∈ bytes.drop m := by rw [hdrop]; simp
    have hm1 : b1 ∈ bytes.drop m := by rw [hdrop]; simp
    have hm2 : b2 ∈ bytes.drop m := by rw [hdrop]; simp
    have hm3 : b3 ∈ bytes.drop m := by rw [hdrop]; simp
    have hb0 : b0 < 256 := hb b0 (List.mem_of_mem_drop hm0)
    have hb1 : b1 < 256 := hb b1 (List.mem_of_mem_drop hm1)
    have hb2 : b2 < 256 := hb b2 (List.mem_of_mem_drop hm2)
    have hb3 : b3 < 256 := hb b3 (List.mem_of_mem_drop hm3)
    have hg0 : bytes.getD m 0 = b0 := by
      have h := getD_drop bytes m 0
      rw [hdrop] at h
      simpa using h.symm
    have hg1 : bytes.getD (m + 1) 0 = b1 := by
      have h := getD_drop bytes m 1
      rw [hdrop] at h
      simpa using h.symm
    have hg2 : bytes.getD (m + 2) 0 = b2 := by
      have h := getD_drop bytes m 2
      rw [hdrop] at h
      simpa using h.symm
    have hg3 : bytes.getD (m + 3) 0 = b3 := by
      have h := getD_drop bytes m 3
      rw [hdrop] at h
      simpa using h.symm
    have ht : List.take 4 (b0 :: b1 :: b2 :: b3 :: l4) = [b0, b1, b2, b3] := rfl
    rw [hg0, hg1, hg2, hg3, ht, reduceAux_cons, reduceAux_cons, reduceAux_cons, reduceAux_cons,
      reduceAux_nil, hshl0 b0 hb0, hshl1 b1 hb1, hshl2 b2 hb2, hshl3 b3 hb3]
    have harr : (b0 : Int) + ((b1 : Int) * 256 + ((b2 : Int) * 65536 +
        (jsToInt32 ((b3 : Int) * 16777216) + 0))) =
        ((b0 : Int) + (b1 : Int) * 256 + (b2 : Int) * 65536) +
          jsToInt32 ((b3 : Int) * 16777216) := by ring
    rw [harr, jsToInt32_add_right]

/-- Component-assembled form of `read32_aligned_fst`. -/
theorem read32_aligned (bytes : List Nat) (m : Nat) (hb : ∀ x ∈ bytes, x < 256) :
    read ⟨bytes, 8 * m⟩ 32 =
      (jsToInt32 ((bytes.getD m 0 : Int) + (bytes.getD (m + 1) 0 : Int) * 256 +
        (bytes.getD (m + 2) 0 : Int) * 65536 + (bytes.getD (m + 3) 0 : Int) * 16777216),
       ⟨bytes, 8 * m + 32⟩) := by
  have h1 := read32_aligned_fst bytes m hb
  have h2 := read_snd ⟨bytes, 8 * m⟩ 32
  calc read ⟨bytes, 8 * m⟩ 32
      = ((read ⟨bytes, 8 * m⟩ 32).1, (read ⟨bytes, 8 * m⟩ 32).2) := Prod.mk.eta.symm
    _ = _ := by rw [h1, h2]

theorem varLoop_succ (j mult : Nat) (len : Int) (r : Reader) :
    varLoop (j + 1) mult len r =
      (if (read (read r 7).2 1).1 ≠ 0
       then varLoop j (mult + 1) (len + jsShl (read r 7).1 (7 * mult)) (read (read r 7).2 1).2
       else (len + jsShl (read r 7).1 (7 * mult), (read (read r 7).2 1).2)) := rfl

theorem varGroupsAux_succ (bytes : List Nat) (p n : Nat) :
    varGroupsAux bytes p (n + 1) =
      if bytes.getD p 0 < 128 then [bytes.getD p 0]
      else bytes.getD p 0 :: varGroupsAux bytes (p + 1) n := rfl

theorem varGroupsAux_length_le (bytes : List Nat) (p n : Nat) :
    (varGroupsAux bytes p n).length ≤ n := by
  induction n generalizing p with
  | zero => simp [varGroupsAux]
  | succ n ih =>
    unfold varGroupsAux
    split
    · simp
    · have := ih (p + 1)
      simp
      omega

/-- The varint loop, started byte-aligned, consumes exactly the bytes listed
by `varGroupsAux` (one 7-bit group plus one continuation bit each) and
accumulates `varLenJS` of those bytes onto the running length. -/
theorem varLoop_groups (bytes : List Nat) (hb : ∀ x ∈ bytes, x < 256) :
    ∀ (j m mult : Nat) (len : Int),
    varLoop j mult len ⟨bytes, 8 * m⟩ =
      (len + varLenJS (varGroupsAux bytes m j) mult,
       ⟨bytes, 8 * m + 8 * (varGroupsAux bytes m j).length⟩) := by
  intro j
  induction j with
  | zero =>
    intro m mult len
    show (len, (⟨bytes, 8 * m⟩ : Reader)) = _
    have h1 : varGroupsAux bytes m 0 = [] := rfl
    rw [h1]
    have h2 : varLenJS [] mult = 0 := rfl
    rw [h2, Prod.mk.injEq]
    refine ⟨by ring, ?_⟩
    rw [Reader.mk.injEq]
    exact ⟨rfl, by simp⟩
  | succ j ih =>
    intro m mult len
    rw [varLoop_succ]
    have h7 : read ⟨bytes, 8 * m⟩ 7 =
        (((bytes.getD m 0 % 2 ^ 7 : Nat) : Int), ⟨bytes, 8 * m + 7⟩) :=
      read_byte_aligned bytes m 7 hb (by norm_num) (by norm_num)
    have h1 : read ⟨bytes, 8 * m + 7⟩ 1 =
        (((bytes.getD m 0 / 128 : Nat) : Int), ⟨bytes, 8 * m + 8⟩) :=
      read_cont_bit bytes m hb
    rw [h7, h1]
    have hblt : bytes.getD m 0 < 256 := by
      rcases Nat.lt_or_ge m bytes.length with hlt | hge
      · have hmem : bytes.getD m 0 ∈ bytes := by
          rw [List.getD_eq_getElem?_getD, List.getElem?_eq_getElem hlt]
          exact List.getElem_mem hlt
        exact hb _ hmem
      · rw [List.getD_eq_getElem?_getD, List.getElem?_eq_none hge]
        norm_num
    have h27 : (2 : Nat) ^ 7 = 128 := by norm_num
    rw [h27]
    by_cases hc : bytes.getD m 0 < 128
    · have hz : bytes.getD m 0 / 128 = 0 := by omega
      rw [hz]
      have hnz : ¬ (((0 : Nat) : Int) ≠ 0) := by norm_num
      rw [if_neg hnz]
      have hgr : varGroupsAux bytes m (j + 1) = [bytes.getD m 0] := by
        rw [varGroupsAux_succ, if_pos hc]
      rw [hgr]
      have hlen : varLenJS [bytes.getD m 0] mult =
          jsShl ((bytes.getD m 0 % 128 : Nat) : Int) (7 * mult) + 0 := rfl
      rw [hlen, Prod.mk.injEq]
      refine ⟨by ring, ?_⟩
      rw [Reader.mk.injEq]
      exact ⟨rfl, by simp⟩
    · have ho : bytes.getD m 0 / 128 = 1 := by omega
      rw [ho]
      have hnz : ((1 : Nat) : Int) ≠ 0 := by norm_num
      rw [if_pos hnz]
      have h8 : 8 * m + 8 = 8 * (m + 1) := by omega
      rw [h8]
      rw [ih (m + 1) (mult + 1) (len + jsShl ((bytes.getD m 0 % 128 : Nat) : Int) (7 * mult))]
      have hgr : varGroupsAux bytes m (j + 1) =
          bytes.getD m 0 :: varGroupsAux bytes (m + 1) j := by
        rw [varGroupsAux_succ, if_neg hc]
      rw [hgr]
      have hlen : varLenJS (bytes.getD m 0 :: varGroupsAux bytes (m + 1) j) mult =
          jsShl ((bytes.getD m 0 % 128 : Nat) : Int) (7 * mult) +
            varLenJS (varGroupsAux bytes (m + 1) j) (mult + 1) := rfl
      rw [hlen, Prod.mk.injEq]
      refine ⟨by ring, ?_⟩
      rw [Reader.mk.injEq]
      refine ⟨rfl, ?_⟩
      simp
      omega

/-- `readVarLen` started byte-aligned: the consumed bytes are `varGroups`
(at most five, stopping after the first byte with a clear top bit), the
resulting length is their `varLenJS` accumulation, and the cursor advances
by eight bits per consumed byte. -/
theorem readVarLen_groups (bytes : List Nat) (m : Nat) (hb : ∀ x ∈ bytes, x < 256) :
    readVarLen ⟨bytes, 8 * m⟩ =
      (varLenJS (varGroups bytes m) 0,
       ⟨bytes, 8 * m + 8 * (varGroups bytes m).length⟩) := by
  unfold readVarLen varGroups
  rw [varLoop_groups bytes hb 5 m 0 0]
  norm_num

theorem heapGetD_oob {h : List Comp} {a : Nat} (ha : h.length ≤ a) :
    heapGetD h a = default := by
  unfold heapGetD
  rw [List.getD_eq_getElem?_getD, List.getElem?_eq_none ha]
  rfl

theorem heapGetD_set_self {h : List Comp} {a : Nat} (ha : a < h.length) (c : Comp) :
    heapGetD (h.set a c) a = c := by
  unfold heapGetD
  rw [List.getD_eq_getElem?_getD, List.getElem?_set_self ha]
  rfl

theorem heapGetD_set_ne {h : List Comp} {a b : Nat} (hne : a ≠ b) (c : Comp) :
    heapGetD (h.set a c) b = heapGetD h b := by
  unfold heapGetD
  rw [List.getD_eq_getElem?_getD, List.getD_eq_getElem?_getD, List.getElem?_set_ne hne]

theorem heapGetD_append_lt {h l : List Comp} {a : Nat} (ha : a < h.length) :
    heapGetD (h ++ l) a = heapGetD h a := by
  unfold heapGetD
  rw [List.getD_eq_getElem?_getD, List.getD_eq_getElem?_getD, List.getElem?_append]
  rw [if_pos ha]

theorem heapGetD_append_len (h : List Comp) (c : Comp) :
    heapGetD (h ++ [c]) h.length = c := by
  unfold heapGetD
  rw [List.getD_eq_getElem?_getD, List.getElem?_append_right le_rfl]
  simp

theorem pushMember_length (h : List Comp) (pa : Nat) (v : Value) :
    (pushMember h pa v).length = h.length := by
  unfold pushMember
  exact List.length_set h pa _

theorem pushMember_getD_ne {h : List Comp} {pa b : Nat} (hne : pa ≠ b) (v : Value) :
    heapGetD (pushMember h pa v) b = heapGetD h b := by
  unfold pushMember
  exact heapGetD_set_ne hne _

theorem pushMember_getD_self {h : List Comp} {pa : Nat} (ha : pa < h.length) (v : Value) :
    heapGetD (pushMember h pa v) pa =
      { heapGetD h pa with memberValues := (heapGetD h pa).memberValues ++ [v] } := by
  unfold pushMember
  exact heapGetD_set_self ha _

theorem pushMembers_length (h : List Comp) (pa : Nat) (vs : List Value) :
    (pushMembers h pa vs).length = h.length := by
  unfold pushMembers
  exact List.length_set h pa _

/-- Appending one member preserves the member-count bound everywhere, as long
as the receiving composite still had a free slot. -/
theorem compOk_pushMember {h : List Comp} {pa a : Nat} (v : Value) (hok : compOk h a)
    (hstrict : (heapGetD h pa).memberValues.length < (heapGetD h pa).memberTypes.length) :
    compOk (pushMember h pa v) a := by
  by_cases hab : pa = a
  · subst hab
    by_cases hlt : pa < h.length
    · unfold compOk
      rw [pushMember_getD_self hlt]
      simp
      omega
    · exfalso
      rw [heapGetD_oob (le_of_not_lt hlt)] at hstrict
      simp [default] at hstrict
  · unfold compOk
    rw [pushMember_getD_ne hab]
    exact hok

/-- Appending a fresh composite with empty `memberValues` preserves the
member-count bound everywhere. -/
theorem compOk_append {h : List Comp} {a : Nat} (c : Comp) (hmv : c.memberValues = [])
    (hok : compOk h a) : compOk (h ++ [c]) a := by
  rcases Nat.lt_trichotomy a h.length with hlt | heq | hgt
  · unfold compOk
    rw [heapGetD_append_lt hlt]
    exact hok
  · subst heq
    unfold compOk
    rw [heapGetD_append_len, hmv]
    simp
  · unfold compOk
    have hlen : (h ++ [c]).length ≤ a := by
      simp
      omega
    rw [heapGetD_oob hlen]
    simp [default]

/-- The freshly appended composite itself satisfies the bound. -/
theorem compOk_new {h : List Comp} (c : Comp) (hmv : c.memberValues = []) :
    compOk (h ++ [c]) h.length := by
  unfold compOk
  rw [heapGetD_append_len, hmv]
  simp

theorem stackOk_of_eq {st1 : St} {stack : List Nat} {heap : List Comp}
    (hs : st1.stack = stack) (hh : st1.heap = heap)
    (hok : ∀ a ∈ stack, compOk heap a) : stackOk st1 := by
  intro a ha
  rw [hs] at ha
  rw [hh]
  exact hok a ha

theorem stackOk_handleHeader {r0 : Reader} {st st1 : St} (hok : stackOk st)
    (h : handleHeader r0 st = .ok (.inl st1)) : stackOk st1 := by
  unfold handleHeader at h
  injection h with h1
  injection h1 with h2
  have hs : st1.stack = st.stack := by rw [← h2]
  have hh : st1.heap = st.heap := by rw [← h2]
  exact stackOk_of_eq hs hh hok

theorem stackOk_handleLibrary {r0 : Reader} {st st1 : St} (hok : stackOk st)
    (h : handleLibrary r0 st = .ok (.inl st1)) : stackOk st1 := by
  unfold handleLibrary at h
  injection h with h1
  injection h1 with h2
  have hs : st1.stack = st.stack := by rw [← h2]
  have hh : st1.heap = st.heap := by rw [← h2]
  exact stackOk_of_eq hs hh hok

theorem stackOk_handleMessageEnd {fuel : Nat} {st st1 : St}
    (h : handleMessageEnd fuel st = .ok (.inl st1)) : stackOk st1 := by
  unfold handleMessageEnd at h
  split at h
  · injection h with h1
    exact Sum.noConfusion h1
  · exact Except.noConfusion h

theorem stackOk_handleArraySinglePrimitive {r0 : Reader} {st st1 : St} (hok : stackOk st)
    (h : handleArraySinglePrimitive r0 st = .ok (.inl st1)) : stackOk st1 := by
  unfold handleArraySinglePrimitive at h
  generalize hG : readPrims (read8 (read32 (read32 r0).2).2).1 (read32 (read32 r0).2).1.toNat
    (read8 (read32 (read32 r0).2).2).2 = res at h
  cases res with
  | error e => exact Except.noConfusion h
  | ok arr =>
    injection h with h1
    injection h1 with h2
    have hs : st1.stack = st.stack := by rw [← h2]
    have hh : st1.heap = st.heap := by rw [← h2]
    exact stackOk_of_eq hs hh hok

theorem parentPush_length (heap : List Comp) (cur : Option Nat) (v : Value) :
    (parentPush heap cur v).length = heap.length := by
  cases cur with
  | none => rfl
  | some pa => exact pushMember_length heap pa v

theorem heapGetD_append_len_eq {h : List Comp} {n : Nat} (hn : n = h.length) (c : Comp) :
    heapGetD (h ++ [c]) n = c := by
  subst hn
  exact heapGetD_append_len h c

theorem compOk_parentPush {heap : List Comp} {cur : Option Nat} {a : Nat} (v : Value)
    (hok : compOk heap a)
    (hcur : ∀ pa, cur = some pa →
      (heapGetD heap pa).memberValues.length < (heapGetD heap pa).memberTypes.length) :
    compOk (parentPush heap cur v) a := by
  cases cur with
  | none => exact hok
  | some pa => exact compOk_pushMember v hok (hcur pa rfl)

theorem stackOk_classWithIdCore {oid mid : Int} {r2 : Reader} {st st1 : St}
    {cur : Option Nat} (hok : stackOk st)
    (hcur : ∀ pa, cur = some pa →
      (heapGetD st.heap pa).memberValues.length < (heapGetD st.heap pa).memberTypes.length)
    (h : classWithIdCore oid mid r2 st cur = .ok (.inl st1)) : stackOk st1 := by
  unfold classWithIdCore at h
  split at h
  · rename_i ma heq
    injection h with h1
    injection h1 with h2
    have hs : st1.stack = st.heap.length :: st.stack := by rw [← h2]
    have hh : st1.heap = parentPush st.heap cur (.vAddr st.heap.length) ++
        [{ heapGetD st.heap ma with memberValues := ([] : List Value), objectId := oid }] := by
      rw [← h2]
    refine stackOk_of_eq hs hh ?_
    intro a ha
    rcases List.mem_cons.mp ha with rfl | hmem
    · unfold compOk
      have hlen : (parentPush st.heap cur (.vAddr st.heap.length)).length = st.heap.length :=
        parentPush_length _ _ _
      rw [heapGetD_append_len_eq hlen.symm]
      simp
    · exact compOk_append _ rfl (compOk_parentPush _ (hok a hmem) hcur)
  · exact Except.noConfusion h

theorem stackOk_classWithMembersCore {cls : Comp × Reader} {st st1 : St}
    {cur : Option Nat} (hok : stackOk st) (hmv : cls.1.memberValues = [])
    (hcur : ∀ pa, cur = some pa →
      (heapGetD st.heap pa).memberValues.length < (heapGetD st.heap pa).memberTypes.length)
    (h : classWithMembersCore cls st cur = .ok (.inl st1)) : stackOk st1 := by
  unfold classWithMembersCore at h
  injection h with h1
  injection h1 with h2
  have hs : st1.stack = st.heap.length :: st.stack := by rw [← h2]
  have hh : st1.heap = parentPush st.heap cur (.vAddr st.heap.length) ++ [cls.1] := by
    rw [← h2]
  refine stackOk_of_eq hs hh ?_
  intro a ha
  rcases List.mem_cons.mp ha with rfl | hmem
  · unfold compOk
    have hlen : (parentPush st.heap cur (.vAddr st.heap.length)).length = st.heap.length :=
      parentPush_length _ _ _
    rw [heapGetD_append_len_eq hlen.symm, hmv]
    simp
  · exact compOk_append _ hmv (compOk_parentPush _ (hok a hmem) hcur)

theorem stackOk_objectStringCore {oid : Int} {s : List Nat} {r2 : Reader} {st st1 : St}
    {cur : Option Nat} (hok : stackOk st)
    (hcur : ∀ pa, cur = some pa →
      (heapGetD st.heap pa).memberValues.length < (heapGetD st.heap pa).memberTypes.length)
    (h : objectStringCore oid s r2 st cur = .ok (.inl st1)) : stackOk st1 := by
  unfold objectStringCore at h
  split at h
  · next pa =>
    injection h with h1
    injection h1 with h2
    have hs : st1.stack = st.stack := by rw [← h2]
    have hh : st1.heap = pushMember st.heap pa (.vStr s) := by rw [← h2]
    refine stackOk_of_eq hs hh ?_
    intro a ha
    exact compOk_pushMember _ (hok a ha) (hcur pa rfl)
  · exact Except.noConfusion h

theorem stackOk_binaryArrayCore {oid rank : Int} {lengths lowerBounds : List Int}
    {itemType : Int} {info : AddInfo} {r7 : Reader} {st st1 : St} (hok : stackOk st)
    (h : binaryArrayCore oid rank lengths lowerBounds itemType info r7 st =
      .ok (.inl st1)) : stackOk st1 := by
  unfold binaryArrayCore at h
  split at h
  · exact Except.noConfusion h
  · rename_i l0 ls
    split at h
    · exact Except.noConfusion h
    · injection h with h1
      injection h1 with h2
      have hs : st1.stack = st.heap.length :: st.stack := by rw [← h2]
      have hh : st1.heap = st.heap ++
          [baComp oid rank (l0 :: ls) lowerBounds itemType info
            (ls.foldl (fun x y => x + y) l0)] := by rw [← h2]
      refine stackOk_of_eq hs hh ?_
      intro a ha
      rcases List.mem_cons.mp ha with rfl | hmem
      · unfold compOk
        rw [heapGetD_append_len]
        simp [baComp]
      · exact compOk_append _ rfl (hok a hmem)

theorem stackOk_memberReferenceCore {refId : Int} {r1 : Reader} {st st1 : St}
    {cur : Option Nat} (hok : stackOk st)
    (hcur : ∀ pa, cur = some pa →
      (heapGetD st.heap pa).memberValues.length < (heapGetD st.heap pa).memberTypes.length)
    (h : memberReferenceCore refId r1 st cur = .ok (.inl st1)) : stackOk st1 := by
  unfold memberReferenceCore at h
  split at h
  · next pa =>
    injection h with h1
    injection h1 with h2
    have hs : st1.stack = st.stack := by rw [← h2]
    have hh : st1.heap = pushMember st.heap pa (.vRef refId) := by rw [← h2]
    refine stackOk_of_eq hs hh ?_
    intro a ha
    exact compOk_pushMember _ (hok a ha) (hcur pa rfl)
  · exact Except.noConfusion h

theorem stackOk_handleObjectNull {st st1 : St} {r0 : Reader} {cur : Option Nat}
    (hok : stackOk st)
    (hcur : ∀ pa, cur = some pa →
      (heapGetD st.heap pa).memberValues.length < (heapGetD st.heap pa).memberTypes.length)
    (h : handleObjectNull st r0 cur = .ok (.inl st1)) : stackOk st1 := by
  unfold handleObjectNull at h
  split at h
  · next pa =>
    injection h with h1
    injection h1 with h2
    have hs : st1.stack = st.stack := by rw [← h2]
    have hh : st1.heap = pushMember st.heap pa .vNull := by rw [← h2]
    refine stackOk_of_eq hs hh ?_
    intro a ha
    exact compOk_pushMember _ (hok a ha) (hcur pa rfl)
  · exact Except.noConfusion h

theorem stackOk_fillCore {res : Except Err (Value × Reader)} {st st1 : St} {a0 : Nat}
    (hok : stackOk st)
    (hstrict : (heapGetD st.heap a0).memberValues.length <
      (heapGetD st.heap a0).memberTypes.length)
    (h : fillCore res st a0 = .ok (.inl st1)) : stackOk st1 := by
  unfold fillCore at h
  split at h
  · exact Except.noConfusion h
  · rename_i vr
    injection h with h1
    injection h1 with h2
    have hs : st1.stack = st.stack := by rw [← h2]
    have hh : st1.heap = pushMember st.heap a0 vr.1 := by rw [← h2]
    refine stackOk_of_eq hs hh ?_
    intro a ha
    exact compOk_pushMember _ (hok a ha) hstrict

theorem cwmat_memberValues (r : Reader) (isSystem : Bool) :
    (deserializeClassWithMembersAndTypes r isSystem).1.memberValues = [] := rfl


/-- Dispatching any record other than `ObjectNull256` (0x0D) preserves the
stack invariant, provided the open parent (when one is passed) still has a
free member slot. -/
theorem stackOk_dispatch {fuel : Nat} {st st1 : St} {cur : Option Nat} (hok : stackOk st)
    (hcur : ∀ pa, cur = some pa →
      (heapGetD st.heap pa).memberValues.length < (heapGetD st.heap pa).memberTypes.length)
    (htag : (read8 st.reader).1 ≠ 13)
    (h : dispatch fuel st cur = .ok (.inl st1)) : stackOk st1 := by
  unfold dispatch at h
  by_cases hc0 : (read8 st.reader).1 = 0
  · rw [if_pos hc0] at h
    exact stackOk_handleHeader hok h
  rw [if_neg hc0] at h
  by_cases hc1 : (read8 st.reader).1 = 1
  · rw [if_pos hc1] at h
    unfold handleClassWithId at h
    exact stackOk_classWithIdCore hok hcur h
  rw [if_neg hc1] at h
  by_cases hc45 : (read8 st.reader).1 = 4 ∨ (read8 st.reader).1 = 5
  · rw [if_pos hc45] at h
    unfold handleClassWithMembers at h
    exact stackOk_classWithMembersCore hok (cwmat_memberValues _ _) hcur h
  rw [if_neg hc45] at h
  by_cases hc6 : (read8 st.reader).1 = 6
  · rw [if_pos hc6] at h
    unfold handleObjectString at h
    exact stackOk_objectStringCore hok hcur h
  rw [if_neg hc6] at h
  by_cases hc7 : (read8 st.reader).1 = 7
  · rw [if_pos hc7] at h
    unfold handleBinaryArray at h
    exact stackOk_binaryArrayCore hok h
  rw [if_neg hc7] at h
  by_cases hc9 : (read8 st.reader).1 = 9
  · rw [if_pos hc9] at h
    unfold handleMemberReference at h
    exact stackOk_memberReferenceCore hok hcur h
  rw [if_neg hc9] at h
  by_cases hc10 : (read8 st.reader).1 = 10
  · rw [if_pos hc10] at h
    exact stackOk_handleObjectNull hok hcur h
  rw [if_neg hc10] at h
  by_cases hc11 : (read8 st.reader).1 = 11
  · rw [if_pos hc11] at h
    exact stackOk_handleMessageEnd h
  rw [if_neg hc11] at h
  by_cases hc12 : (read8 st.reader).1 = 12
  · rw [if_pos hc12] at h
    exact stackOk_handleLibrary hok h
  rw [if_neg hc12] at h
  by_cases hc13 : (read8 st.reader).1 = 13
  · rw [if_pos hc13] at h
    exact absurd hc13 htag
  rw [if_neg hc13] at h
  by_cases hc15 : (read8 st.reader).1 = 15
  · rw [if_pos hc15] at h
    exact stackOk_handleArraySinglePrimitive hok h
  rw [if_neg hc15] at h
  exact Except.noConfusion h

/-- A completed (or overfilled) composite at the stack tip is popped by the
next loop iteration. -/
theorem iter_pop {fuel : Nat} {st : St} {a : Nat} {rest : List Nat}
    (hstack : st.stack = a :: rest)
    (hfull : ¬ (heapGetD st.heap a).memberValues.length <
      (heapGetD st.heap a).memberTypes.length) :
    iter fuel st = .ok (.inl { st with stack := rest }) := by
  unfold iter
  simp only [hstack]
  rw [if_neg hfull]

/-- One loop iteration preserves the stack invariant whenever the record it
dispatches (if any) is not `ObjectNull256` (0x0D). -/
theorem stackOk_iter {fuel : Nat} {st st1 : St} (hok : stackOk st)
    (htag : nextTag st ≠ 13)
    (h : iter fuel st = .ok (.inl st1)) : stackOk st1 := by
  have htag2 : (read8 st.reader).1 ≠ 13 := htag
  unfold iter at h
  split at h
  · rename_i a rest heq
    split at h
    · rename_i hlt
      split at h
      · exact stackOk_fillCore hok hlt h
      · refine stackOk_dispatch hok ?_ htag2 h
        intro pa hpa
        injection hpa with hpa2
        subst hpa2
        exact hlt
    · rename_i hnlt
      injection h with h1
      injection h1 with h2
      have hs : st1.stack = rest := by rw [← h2]
      have hh : st1.heap = st.heap := by rw [← h2]
      refine stackOk_of_eq hs hh ?_
      intro b hb
      refine hok b ?_
      rw [heq]
      exact List.mem_cons_of_mem a hb
  · exact stackOk_dispatch hok (fun pa hpa => Option.noConfusion hpa) htag2 h

theorem objLookup_objSet_self (objs : List (Int × Value)) (k : Int) (v : Value) :
    objLookup (objSet objs k v) k = some v := by
  induction objs with
  | nil => simp [objSet, objLookup, List.find?]
  | cons p rest ih =>
    obtain ⟨k1, v1⟩ := p
    by_cases h : k1 = k
    · simp [objSet, h, objLookup, List.find?]
    · have hb : (k1 == k) = false := beq_eq_false_iff_ne.mpr h
      simp only [objSet, if_neg h]
      unfold objLookup at ih ⊢
      simp only [List.find?, hb]
      exact ih

theorem objLookup_objSet_ne (objs : List (Int × Value)) {k k1 : Int} (v : Value)
    (hne : k1 ≠ k) : objLookup (objSet objs k v) k1 = objLookup objs k1 := by
  have hb : (k == k1) = false := beq_eq_false_iff_ne.mpr (Ne.symm hne)
  induction objs with
  | nil => simp [objSet, objLookup, List.find?, hb]
  | cons p rest ih =>
    obtain ⟨k0, v0⟩ := p
    by_cases h : k0 = k
    · subst h
      simp [objSet, objLookup, List.find?, hb]
    · simp only [objSet, if_neg h]
      unfold objLookup at ih ⊢
      simp only [List.find?]
      cases hbv : (k0 == k1) with
      | false => exact ih
      | true => rfl

theorem parentPush_getD_ne {heap : List Comp} {cur : Option Nat} {a : Nat}
    (hcur : cur ≠ some a) (v : Value) :
    heapGetD (parentPush heap cur v) a = heapGetD heap a := by
  match cur with
  | none => rfl
  | some pa =>
    have hne : pa ≠ a := fun he => hcur (by rw [he])
    exact pushMember_getD_ne hne v

theorem jsInsert_append {acc : List (List Nat × Value)} {nm : List Nat}
    (hf : ∀ q ∈ acc, q.1 ≠ nm) (w : Value) :
    jsInsert acc nm w = acc ++ [(nm, w)] := by
  induction acc with
  | nil => rfl
  | cons q rest ih =>
    obtain ⟨k1, v1⟩ := q
    have hk : k1 ≠ nm := hf (k1, v1) (List.mem_cons_self _ _)
    simp only [jsInsert, if_neg hk, List.cons_append, List.cons.injEq, true_and]
    exact ih (fun q hq => hf q (List.mem_cons_of_mem _ hq))

theorem range_map_getD (values : List Value) :
    (List.range values.length).map (fun i => values.getD i .vUndefined) = values := by
  induction values with
  | nil => rfl
  | cons v vs ih =>
    rw [List.length_cons, List.range_succ_eq_map, List.map_cons, List.map_map]
    simp only [List.getD_cons_zero, Function.comp_def, List.getD_cons_succ]
    rw [ih]

theorem deserializeHeader_snd (r : Reader) :
    (deserializeHeader r).2 = ⟨r.bytes, r.bit + 128⟩ := by
  unfold deserializeHeader read32
  simp only [read_snd]

/-- `Object.values(state.objects)[0]` is the value of the entry with the
strictly smallest nonnegative id, whenever such an entry exists. -/
theorem rootValue_min {objs : List (Int × Value)} {p : Int × Value}
    (hmem : p ∈ objs) (hp : 0 ≤ p.1)
    (hmin : ∀ q ∈ objs, 0 ≤ q.1 → q ≠ p → p.1 < q.1) :
    rootValue objs = p.2 := by
  have hpF : p ∈ objs.filter (fun q => decide (0 ≤ q.1)) :=
    List.mem_filter.mpr ⟨hmem, decide_eq_true hp⟩
  have hperm := List.perm_insertionSort entryLE (objs.filter (fun q => decide (0 ≤ q.1)))
  have hsorted := List.sorted_insertionSort entryLE (objs.filter (fun q => decide (0 ≤ q.1)))
  have hpL : p ∈ List.insertionSort entryLE (objs.filter (fun q => decide (0 ≤ q.1))) :=
    hperm.mem_iff.mpr hpF
  cases hL : List.insertionSort entryLE (objs.filter (fun q => decide (0 ≤ q.1))) with
  | nil =>
    rw [hL] at hpL
    exact absurd hpL (List.not_mem_nil p)
  | cons l0 tl =>
    rw [hL] at hpL hsorted hperm
    have hl0F : l0 ∈ objs.filter (fun q => decide (0 ≤ q.1)) :=
      hperm.mem_iff.mp (List.mem_cons_self _ _)
    have hl0objs : l0 ∈ objs := (List.mem_filter.mp hl0F).1
    have hl0nonneg : 0 ≤ l0.1 := of_decide_eq_true (List.mem_filter.mp hl0F).2
    have hl0p : l0 = p := by
      rcases List.mem_cons.mp hpL with h | h
      · exact h.symm
      · have hle : l0.1 ≤ p.1 := (List.sorted_cons.mp hsorted).1 p h
        by_contra hne
        have hlt : p.1 < l0.1 := hmin l0 hl0objs hl0nonneg hne
        omega
    unfold rootValue jsValues
    rw [hL, List.map_cons, List.cons_append, List.headD_cons, hl0p]


theorem optBind_some {α β : Type} (a : α) (g : α → Option β) : (some a).bind g = g a := rfl

theorem optBind_none {α β : Type} (g : α → Option β) :
    (none : Option α).bind g = none := rfl

theorem optMap_some {α β : Type} (a : α) (g : α → β) : (some a).map g = some (g a) := rfl

theorem optMap_none {α β : Type} (g : α → β) : (none : Option α).map g = none := rfl

theorem mapMembersList_cons (f : Value → Option Value) (v : Value) (vs : List Value) :
    mapMembersList f (v :: vs) =
      (f v).bind (fun w => (mapMembersList f vs).bind (fun ws => some (w :: ws))) := rfl

theorem mapMembersObj_cons_step (f : Value → Option Value) (nm : List Nat)
    (rest : List (List Nat)) (values : List Value) (idx : Nat)
    (acc : List (List Nat × Value)) (h : ¬(nm = itemsName ∨ nm = valueName)) :
    mapMembersObj f (nm :: rest) values idx acc =
      (f (values.getD idx .vUndefined)).bind
        (fun w => mapMembersObj f rest values (idx + 1) (jsInsert acc nm w)) := by
  have h1 : mapMembersObj f (nm :: rest) values idx acc =
      if nm = itemsName ∨ nm = valueName then f (values.getD idx .vUndefined)
      else (f (values.getD idx .vUndefined)).bind
        (fun w => mapMembersObj f rest values (idx + 1) (jsInsert acc nm w)) := rfl
  rw [h1, if_neg h]

theorem getD_drop_value (values : List Value) (m i : Nat) :
    (values.drop m).getD i .vUndefined = values.getD (m + i) .vUndefined := by
  simp [List.getD_eq_getElem?_getD, List.getElem?_drop]

/-- Reading exactly the remaining slots reproduces the value list. -/
theorem slots_full : ∀ (vs : List Value) (idx : Nat) (values : List Value),
    values.drop idx = vs → slots values idx vs.length = vs := by
  intro vs
  induction vs with
  | nil => intros; rfl
  | cons v vs2 ih =>
    intro idx values hdrop
    have hhead : values.getD idx .vUndefined = v := by
      have h0 := getD_drop_value values idx 0
      rw [hdrop, List.getD_cons_zero, Nat.add_zero] at h0
      exact h0.symm
    have htail : values.drop (idx + 1) = vs2 := by
      rw [← List.drop_drop, hdrop]
      rfl
    rw [List.length_cons]
    show values.getD idx .vUndefined :: slots values (idx + 1) vs2.length = v :: vs2
    rw [hhead, ih (idx + 1) values htail]

/-- A `mapMembers` member loop whose member names never collapse folds the
names with the projected member slots into a plain object appended after the
accumulator. -/
theorem mapMembersObj_no_collapse (f : Value → Option Value) :
    ∀ (names : List (List Nat)) (values : List Value) (idx : Nat)
      (acc : List (List Nat × Value)),
      (∀ nm ∈ names, ¬(nm = itemsName ∨ nm = valueName)) →
      names.Nodup →
      (∀ nm ∈ names, ∀ q ∈ acc, q.1 ≠ nm) →
      mapMembersObj f names values idx acc =
        (mapMembersList f (slots values idx names.length)).map
          (fun ws => .vObj (acc ++ names.zip ws)) := by
  intro names
  induction names with
  | nil =>
    intro values idx acc _ _ _
    show some (Value.vObj acc) = some (Value.vObj (acc ++ [].zip []))
    rw [List.zip_nil_right, List.append_nil]
  | cons nm rest ih =>
    intro values idx acc hnc hnd hfresh
    have hnmnc : ¬(nm = itemsName ∨ nm = valueName) := hnc nm (List.mem_cons_self _ _)
    rw [mapMembersObj_cons_step f nm rest values idx acc hnmnc, List.length_cons]
    rw [show slots values idx (rest.length + 1) =
      values.getD idx .vUndefined :: slots values (idx + 1) rest.length from rfl]
    rw [mapMembersList_cons]
    cases hf0 : f (values.getD idx .vUndefined) with
    | none => rfl
    | some w =>
      simp only [optBind_some]
      have hins : jsInsert acc nm w = acc ++ [(nm, w)] :=
        jsInsert_append (fun q hq => hfresh nm (List.mem_cons_self _ _) q hq) w
      have hfresh2 : ∀ x ∈ rest, ∀ q ∈ acc ++ [(nm, w)], q.1 ≠ x := by
        intro x hx q hq
        rcases List.mem_append.mp hq with hq1 | hq2
        · exact hfresh x (List.mem_cons_of_mem _ hx) q hq1
        · have hqe : q = (nm, w) := List.mem_singleton.mp hq2
          rw [hqe]
          intro he
          have hnx : nm = x := he
          exact (List.nodup_cons.mp hnd).1 (by rw [hnx]; exact hx)
      rw [hins, ih values (idx + 1) (acc ++ [(nm, w)])
        (fun x hx => hnc x (List.mem_cons_of_mem _ hx)) (List.nodup_cons.mp hnd).2 hfresh2]
      cases hsl : mapMembersList f (slots values (idx + 1) rest.length) with
      | none => rfl
      | some ws =>
        simp only [optBind_some, optMap_some]
        rw [List.append_assoc]
        rfl

/-- A `mapMembers` member loop whose first collapsing name follows `pre`
non-collapsing members returns the projection of the collapsing member's
slot, provided the earlier slots all project successfully. -/
theorem mapMembersObj_collapse (f : Value → Option Value) :
    ∀ (pre : List (List Nat)) (nm : List Nat) (post : List (List Nat))
      (values : List Value) (idx : Nat) (acc : List (List Nat × Value)) (ws : List Value),
      (∀ x ∈ pre, ¬(x = itemsName ∨ x = valueName)) →
      (nm = itemsName ∨ nm = valueName) →
      mapMembersList f (slots values idx pre.length) = some ws →
      mapMembersObj f (pre ++ nm :: post) values idx acc =
        f (values.getD (idx + pre.length) .vUndefined) := by
  intro pre
  induction pre with
  | nil =>
    intro nm post values idx acc ws _ hcol _
    rw [List.nil_append]
    unfold mapMembersObj
    rw [if_pos hcol, List.length_nil, Nat.add_zero]
  | cons x pre2 ih =>
    intro nm post values idx acc ws hnc hcol hws
    have hxnc : ¬(x = itemsName ∨ x = valueName) := hnc x (List.mem_cons_self _ _)
    rw [List.cons_append, mapMembersObj_cons_step f x _ values idx acc hxnc]
    rw [List.length_cons] at hws
    rw [show slots values idx (pre2.length + 1) =
      values.getD idx .vUndefined :: slots values (idx + 1) pre2.length from rfl,
      mapMembersList_cons] at hws
    cases hf0 : f (values.getD idx .vUndefined) with
    | none =>
      rw [hf0, optBind_none] at hws
      exact absurd hws (by simp)
    | some w =>
      rw [hf0] at hws
      simp only [optBind_some] at hws
      cases hsl : mapMembersList f (slots values (idx + 1) pre2.length) with
      | none =>
        rw [hsl, optBind_none] at hws
        exact absurd hws (by simp)
      | some ws2 =>
        simp only [optBind_some]
        rw [ih nm post values (idx + 1) (jsInsert acc x w) ws2
          (fun y hy => hnc y (List.mem_cons_of_mem _ hy)) hcol hsl]
        rw [List.length_cons]
        have harith : idx + 1 + pre2.length = idx + (pre2.length + 1) := by omega
        rw [harith]

/-- With an empty open-object stack and a header tag under the cursor, one
loop iteration just records the parsed header. -/
theorem iter_header (fuel : Nat) (st : St) (hstack : st.stack = [])
    (h0 : (read8 st.reader).1 = 0) :
    iter fuel st = Except.ok (Sum.inl
      { st with reader := (deserializeHeader (read8 st.reader).2).2,
                header := some (deserializeHeader (read8 st.reader).2).1 }) := by
  have h1 : iter fuel st = dispatch fuel st none := by
    unfold iter
    rw [hstack]
  rw [h1]
  unfold dispatch
  rw [if_pos h0]
  rfl

/-- One loop iteration on an all-zero byte array, starting byte-aligned with
an empty stack: the zero tag parses as a header record. -/
theorem iter_zeros_step (bytes : List Nat) (hz : ∀ b ∈ bytes, b = 0)
    (bit : Nat) (libs : List (Int × List Nat)) (objs : List (Int × Value))
    (refs : List (Nat × Nat × Int)) (heap : List Comp)
    (hdr : Option (Int × Int × Int × Int)) (hbit : bit % 8 = 0) (n : Nat) :
    iter (n + 1) (⟨⟨bytes, bit⟩, libs, objs, refs, [], heap, hdr⟩ : St) = Except.ok (Sum.inl (⟨(deserializeHeader ⟨bytes, bit + 8⟩).2, libs, objs, refs, [], heap, some (deserializeHeader ⟨bytes, bit + 8⟩).1⟩ : St)) := by
  have hr : read ⟨bytes, bit⟩ 8 = (0, ⟨bytes, bit + 8⟩) := read_zeros bytes bit 8 hz hbit
  have h0 : (read8 ((⟨⟨bytes, bit⟩, libs, objs, refs, [], heap, hdr⟩ : St)).reader).1 = 0 := by
    show (read ⟨bytes, bit⟩ 8).1 = 0
    rw [hr]
  have h2 : (read8 ((⟨⟨bytes, bit⟩, libs, objs, refs, [], heap, hdr⟩ : St)).reader).2 = (⟨bytes, bit + 8⟩ : Reader) := by
    show (read ⟨bytes, bit⟩ 8).2 = _
    rw [hr]
  have hiter := iter_header (n + 1) (⟨⟨bytes, bit⟩, libs, objs, refs, [], heap, hdr⟩ : St) rfl h0
  rw [h2] at hiter
  exact hiter

/-- A loop iteration that yields a successor state steps `run` once. -/
theorem run_step {n : Nat} {st st1 : St} (h : iter (n + 1) st = Except.ok (Sum.inl st1)) :
    run (n + 1) st = run n st1 := by
  show (match iter (n + 1) st with
    | Except.error e => RunResult.err e
    | Except.ok (Sum.inl st1) => run n st1
    | Except.ok (Sum.inr v) => RunResult.ok st v) = run n st1
  rw [h]

/-- On an all-zero byte array the main loop reads header records forever:
`run` exhausts any amount of fuel. -/
theorem run_zeros (bytes : List Nat) (hz : ∀ b ∈ bytes, b = 0) :
    ∀ (fuel bit : Nat) (libs : List (Int × List Nat)) (objs : List (Int × Value))
      (refs : List (Nat × Nat × Int)) (heap : List Comp)
      (hdr : Option (Int × Int × Int × Int)), bit % 8 = 0 →
      run fuel (⟨⟨bytes, bit⟩, libs, objs, refs, [], heap, hdr⟩ : St) = .fuelOut := by
  intro fuel
  induction fuel with
  | zero => intros; rfl
  | succ n ih =>
    intro bit libs objs refs heap hdr hbit
    have hiter := iter_zeros_step bytes hz bit libs objs refs heap hdr hbit n
    rw [run_step hiter, deserializeHeader_snd]
    exact ih (bit + 8 + 128) libs objs refs heap _ (by omega)

/-- Claim C1 (amended): at `MessageEnd` the queued fix-ups are applied in
insertion (FIFO) order - `applyFixups` folds `state.references`
left-to-right over the heap - and the result is the projection of the root
object; but the root is the object-table entry with the smallest nonnegative
id (JavaScript `Object.values` enumerates integer-like keys in ascending
numeric order), not the first entry inserted into the table. -/
theorem C1_messageEnd_root (fuel : Nat) (st : St) (p : Int × Value)
    (hmem : p ∈ st.objects) (hp : 0 ≤ p.1)
    (hmin : ∀ q ∈ st.objects, 0 ≤ q.1 → q ≠ p → p.1 < q.1) :
    handleMessageEnd fuel st =
      match mapMembers (applyFixups st.heap st.objects st.references) fuel p.2 with
      | some v => Except.ok (Sum.inr v)
      | none => Except.error Err.overflow := by
  unfold handleMessageEnd projectRoot
  rw [rootValue_min hmem hp hmin]

/-- Witness for C1 at the `MessageEnd` state of `c1Bytes`: the root is entry
2 (the smallest nonnegative id), stored at heap address 1. -/
theorem C1_messageEnd_root_witness :
    handleMessageEnd 20 c1St =
      match mapMembers (applyFixups c1St.heap c1St.objects c1St.references) 20
        (Value.vAddr 1) with
      | some v => Except.ok (Sum.inr v)
      | none => Except.error Err.overflow := by
  refine C1_messageEnd_root 20 c1St (2, .vAddr 1) ?_ ?_ ?_
  · exact List.Mem.tail _ (List.Mem.head _)
  · decide
  · intro q hq h0 hne
    rcases List.mem_cons.mp hq with h | h
    · rw [h]
      decide
    · rcases List.mem_cons.mp h with h2 | h2
      · exact absurd h2 hne
      · exact absurd h2 (List.not_mem_nil q)

/-- Counterexample to the original claim C1: on `c1Bytes` the first entry
inserted into the object table is id 3, whose projection is `{a: 42}`, yet
`deserialize` returns `{b: 7}`, the projection of the later-inserted entry
with the smaller id 2. -/
theorem C1_counterexample :
    deserialize 20 c1Bytes = RunResult.ok c1St (.vObj [([98], .vInt 7)]) ∧
    c1St.objects.head? = some (3, .vAddr 0) ∧
    mapMembers (applyFixups c1St.heap c1St.objects c1St.references) 20 (.vAddr 0) =
      some (.vObj [([97], .vInt 42)]) ∧
    Value.vObj [([98], Value.vInt 7)] ≠ Value.vObj [([97], Value.vInt 42)] :=
  ⟨rfl, rfl, rfl, by simp⟩

/-- Claim C2: code bug - the sbyte decode (primitive-type code 10) calls the
nonexistent `reader.read7()`, so instead of reading 7 magnitude bits and a
sign bit it throws a TypeError for every reader state, and a stream whose
next member slot has type sbyte kills the whole decode with that TypeError
before any byte of the member is consumed. -/
theorem C2_sbyte_typeError :
    (∀ r : Reader, deserializePrimitiveType r 10 = .error .typeError) ∧
    deserialize 5 c2Bytes = RunResult.err Err.typeError :=
  ⟨fun _ => rfl, rfl⟩

/-- Claim C3 (amended): one main-loop iteration preserves the invariant that
no stacked composite has more member values than member types, for every
record tag except `0x0D ObjectNull256` (which pushes its null count without
any bound check); and a composite whose `memberValues.length` has reached
`memberTypes.length` is popped from the stack by the next iteration. -/
theorem C3_stack_discipline (fuel : Nat) (st st1 : St) :
    (stackOk st → nextTag st ≠ 13 → iter fuel st = Except.ok (Sum.inl st1) →
      stackOk st1) ∧
    (∀ a rest, st.stack = a :: rest →
      ¬ (heapGetD st.heap a).memberValues.length <
        (heapGetD st.heap a).memberTypes.length →
      iter fuel st = Except.ok (Sum.inl { st with stack := rest })) :=
  ⟨fun hok htag h => stackOk_iter hok htag h,
   fun _ _ hstack hfull => iter_pop hstack hfull⟩

/-- Witness for C3: the header iteration on the stream `[0]` preserves the
invariant, and a state whose open composite is full pops it. -/
theorem C3_stack_discipline_witness :
    stackOk c3HdrSt ∧
    iter 1 c3PopSt = Except.ok (Sum.inl { c3PopSt with stack := [] }) :=
  ⟨(C3_stack_discipline 1 (initSt [0]) c3HdrSt).1 (by decide) (by decide) rfl,
   (C3_stack_discipline 1 c3PopSt c3PopSt).2 0 [] rfl (by decide)⟩

/-- Counterexample to the original claim C3: after the `ObjectNull256` record
of `c3Bytes` the open composite holds two member values against a single
member type, so `memberValues.length` exceeds `memberTypes.length` while the
composite is still on the stack. -/
theorem C3_counterexample :
    iterN 20 3 (initSt c3Bytes) = Except.ok (Sum.inl c3St) ∧
    c3St.stack = [0] ∧
    (heapGetD c3St.heap 0).memberTypes.length <
      (heapGetD c3St.heap 0).memberValues.length :=
  ⟨rfl, rfl, by decide⟩

/-- Claim C4 (amended): started byte-aligned, the varint length prefix
consumes at most five bytes (one 7-bit group plus one continuation bit
each), stops after the first byte with a clear continuation bit, and
accumulates the groups low-to-high through `varLenJS` - which shifts with
the 32-bit JavaScript `<<`, so the fifth group wraps instead of extending
the value exactly. -/
theorem C4_varint (bytes : List Nat) (m : Nat) (hb : ∀ x ∈ bytes, x < 256) :
    readVarLen ⟨bytes, 8 * m⟩ =
      (varLenJS (varGroups bytes m) 0,
       ⟨bytes, 8 * m + 8 * (varGroups bytes m).length⟩) ∧
    (varGroups bytes m).length ≤ 5 :=
  ⟨readVarLen_groups bytes m hb, varGroupsAux_length_le bytes m 5⟩

/-- Witness for C4: the two bytes 0x81 0x02 decode to the length 257. -/
theorem C4_varint_witness :
    readVarLen ⟨[129, 2], 0⟩ = (257, ⟨[129, 2], 16⟩) ∧
    (varGroups [129, 2] 0).length ≤ 5 :=
  C4_varint [129, 2] 0 (by decide)

/-- Counterexample to the original claim C4: the five-byte varint
FF FF FF FF 7F accumulates to −1 through the 32-bit shift, whereas the exact
low-to-high concatenation of its five 7-bit groups is 34359738367. -/
theorem C4_counterexample :
    (readVarLen ⟨[255, 255, 255, 255, 127], 0⟩).1 = -1 ∧
    varLenSpec (varGroups [255, 255, 255, 255, 127] 0) = 34359738367 ∧
    (readVarLen ⟨[255, 255, 255, 255, 127], 0⟩).1 ≠
      (varLenSpec (varGroups [255, 255, 255, 255, 127] 0) : Int) :=
  ⟨rfl, rfl, by decide⟩

/-- Claim C5: projecting a composite that carries a class descriptor (no
truthy rank): when no member name is `_items` or `value__` and the names are
distinct, the result pairs the member names with the projected member
values; when a member named `_items` or `value__` is reached (all earlier
members projecting successfully), the projection of that member's slot is
returned as the entire result and all sibling members are dropped. -/
theorem C5_projection (heap : List Comp) (fuel : Nat) (a : Nat) :
    (rankTruthy (heapGetD heap a) = false →
     (heapGetD heap a).memberValues.length = (heapGetD heap a).memberNames.length →
     (∀ nm ∈ (heapGetD heap a).memberNames, ¬(nm = itemsName ∨ nm = valueName)) →
     (heapGetD heap a).memberNames.Nodup →
     mapMembers heap (fuel + 1) (.vAddr a) =
       (mapMembersList (mapMembers heap fuel) (heapGetD heap a).memberValues).map
         (fun ws => .vObj ((heapGetD heap a).memberNames.zip ws))) ∧
    (∀ (pre : List (List Nat)) (nm : List Nat) (post : List (List Nat))
      (ws : List Value),
     rankTruthy (heapGetD heap a) = false →
     (heapGetD heap a).memberNames = pre ++ nm :: post →
     (∀ x ∈ pre, ¬(x = itemsName ∨ x = valueName)) →
     (nm = itemsName ∨ nm = valueName) →
     mapMembersList (mapMembers heap fuel)
       (slots (heapGetD heap a).memberValues 0 pre.length) = some ws →
     mapMembers heap (fuel + 1) (.vAddr a) =
       mapMembers heap fuel
         ((heapGetD heap a).memberValues.getD pre.length .vUndefined)) := by
  have hstep : rankTruthy (heapGetD heap a) = false →
      mapMembers heap (fuel + 1) (.vAddr a) =
        mapMembersObj (mapMembers heap fuel) (heapGetD heap a).memberNames
          (heapGetD heap a).memberValues 0 [] := by
    intro hrank
    have h1 : mapMembers heap (fuel + 1) (.vAddr a) =
        if rankTruthy (heapGetD heap a) then
          (mapMembersList (mapMembers heap fuel) (heapGetD heap a).memberValues).map .vArr
        else mapMembersObj (mapMembers heap fuel) (heapGetD heap a).memberNames
          (heapGetD heap a).memberValues 0 [] := rfl
    rw [h1, hrank]
    exact if_neg (by simp)
  constructor
  · intro hrank hlen hnc hnd
    rw [hstep hrank]
    rw [mapMembersObj_no_collapse (mapMembers heap fuel) (heapGetD heap a).memberNames
      (heapGetD heap a).memberValues 0 [] hnc hnd
      (fun nm _ q hq => absurd hq (List.not_mem_nil q))]
    rw [← hlen, slots_full (heapGetD heap a).memberValues 0 (heapGetD heap a).memberValues
      (List.drop_zero _)]
    simp only [List.nil_append]
  · intro pre nm post ws hrank hnames hpre hcol hws
    rw [hstep hrank, hnames]
    have h2 := mapMembersObj_collapse (mapMembers heap fuel) pre nm post
      (heapGetD heap a).memberValues 0 [] ws hpre hcol hws
    rw [Nat.zero_add] at h2
    exact h2

/-- Witness for C5: a two-member composite projects to a two-key object, and
an `_items` composite collapses to its payload. -/
theorem C5_projection_witness :
    mapMembers c5Heap 2 (.vAddr 0) =
      some (.vObj [([97], .vInt 1), ([98], .vInt 2)]) ∧
    mapMembers c5ItemsHeap 2 (.vAddr 0) =
      some (.vArr [.vInt 1, .vInt 2, .vInt 3]) := by
  constructor
  · have h := (C5_projection c5Heap 1 0).1 rfl rfl (by decide) (by decide)
    rw [h]
    rfl
  · have h := (C5_projection c5ItemsHeap 1 0).2 [] itemsName [] [] rfl rfl
      (fun x hx => absurd hx (List.not_mem_nil x)) (Or.inl rfl) rfl
    rw [h]
    rfl

/-- Claim C6 (amended): a MemberReference whose referenced id is absent from
the object table at MessageEnd is not an error: the fix-up reads
`state.objects[id]` as `undefined` and silently overwrites the member slot
with `undefined`, and the decode returns normally. -/
theorem C6_dangling_undefined (heap : List Comp) (objs : List (Int × Value))
    (f : Nat × Nat × Int) (hmiss : objLookup objs f.2.2 = none) :
    applyFixup heap f objs =
      heap.set f.1 { heapGetD heap f.1 with
        memberValues := (heapGetD heap f.1).memberValues.set f.2.1 Value.vUndefined } := by
  unfold applyFixup
  rw [hmiss]
  rfl

/-- Witness for C6: a fix-up against an empty object table writes
`undefined` over the recorded member slot. -/
theorem C6_dangling_undefined_witness :
    applyFixup c6Heap (0, 0, 9) [] = [{ memberValues := [Value.vUndefined] }] :=
  C6_dangling_undefined c6Heap [] (0, 0, 9) rfl

/-- Counterexample to the original claim C6: `c6Bytes` contains a
MemberReference to id 99, never registered, yet `deserialize` returns a
value (the member reads `undefined`) instead of failing. -/
theorem C6_counterexample :
    deserialize 20 c6Bytes = RunResult.ok c6St (.vObj [([109], .vUndefined)]) ∧
    c6St.references = [(0, 0, 99)] ∧
    objLookup c6St.objects 99 = none :=
  ⟨rfl, rfl, rfl⟩

/-- Claim C7 (amended): a byte-aligned `read32` returns ToInt32 of the
little-endian value of the next four bytes - a signed value in
[−2^31, 2^31), not the unsigned range [0, 2^32); the example
00 00 00 01 → 16777216 holds because that value is below 2^31. -/
theorem C7_read32_signed (bytes : List Nat) (m : Nat) (hb : ∀ x ∈ bytes, x < 256) :
    read32 ⟨bytes, 8 * m⟩ =
      (jsToInt32 ((bytes.getD m 0 : Int) + (bytes.getD (m + 1) 0 : Int) * 256 +
        (bytes.getD (m + 2) 0 : Int) * 65536 + (bytes.getD (m + 3) 0 : Int) * 16777216),
       ⟨bytes, 8 * m + 32⟩) ∧
    -2147483648 ≤ (read32 ⟨bytes, 8 * m⟩).1 ∧
    (read32 ⟨bytes, 8 * m⟩).1 < 2147483648 := by
  have h := read32_aligned bytes m hb
  have h1 : (read32 ⟨bytes, 8 * m⟩).1 =
      jsToInt32 ((bytes.getD m 0 : Int) + (bytes.getD (m + 1) 0 : Int) * 256 +
        (bytes.getD (m + 2) 0 : Int) * 65536 + (bytes.getD (m + 3) 0 : Int) * 16777216) :=
    read32_aligned_fst bytes m hb
  refine ⟨h, ?_, ?_⟩
  · rw [h1]
    exact jsToInt32_lb _
  · rw [h1]
    exact jsToInt32_ub _

/-- Witness for C7: the spec's u32 example, 00 00 00 01 at offset 0. -/
theorem C7_read32_signed_witness :
    read32 ⟨[0, 0, 0, 1], 0⟩ = (16777216, ⟨[0, 0, 0, 1], 32⟩) ∧
    -2147483648 ≤ (read32 ⟨[0, 0, 0, 1], 0⟩).1 ∧
    (read32 ⟨[0, 0, 0, 1], 0⟩).1 < 2147483648 :=
  C7_read32_signed [0, 0, 0, 1] 0 (by decide)

/-- Counterexample to the original claim C7: reading FF FF FF FF as a u32
yields −1, which is negative, not a value in [0, 2^32). -/
theorem C7_counterexample :
    (read32 ⟨[255, 255, 255, 255], 0⟩).1 = -1 ∧
    (read32 ⟨[255, 255, 255, 255], 0⟩).1 < 0 :=
  ⟨rfl, by decide⟩

/-- Claim C8: code bug - on a truncated stream the reader's `slice` silently
yields zero-filled reads instead of raising an error; on the one-byte stream
`[0]` the main loop keeps parsing header records past the end of the input
forever, so `deserialize` exhausts every fuel bound instead of failing with
a truncated-input error. -/
theorem C8_truncated_loops (fuel : Nat) : deserialize fuel [0] = RunResult.fuelOut := by
  show run fuel (initSt [0]) = RunResult.fuelOut
  exact run_zeros [0] (by decide) fuel 0 [] [] [] [] none rfl

/-- Claim C9 (amended): `ClassWithId` clones the descriptor registered under
`metadataId` (fresh `memberValues`, new object id) and pushes and registers
the clone; when `objectId ≠ metadataId`, the heap composite is not the
parent, and the address is in range, both the object-table entry under
`metadataId` and the stored composite (its `memberValues` included) are
unchanged - but re-registration overwrites the `metadataId` entry whenever
`objectId = metadataId`. -/
theorem C9_classWithId {oid mid : Int} {r2 : Reader} {st st1 : St} {cur : Option Nat}
    {ma : Nat}
    (hma : objLookup st.objects mid = some (.vAddr ma))
    (hne : oid ≠ mid) (hcur : cur ≠ some ma) (hlt : ma < st.heap.length)
    (h : classWithIdCore oid mid r2 st cur = Except.ok (Sum.inl st1)) :
    objLookup st1.objects mid = some (Value.vAddr ma) ∧
    heapGetD st1.heap ma = heapGetD st.heap ma ∧
    heapGetD st1.heap st.heap.length =
      { heapGetD st.heap ma with memberValues := [], objectId := oid } ∧
    objLookup st1.objects oid = some (Value.vAddr st.heap.length) ∧
    st1.stack = st.heap.length :: st.stack := by
  unfold classWithIdCore at h
  split at h
  · rename_i ma2 heq
    rw [hma] at heq
    injection heq with heq1
    injection heq1 with heq2
    subst heq2
    injection h with h1
    injection h1 with h2
    have hobjs : st1.objects = objSet st.objects oid (.vAddr st.heap.length) := by
      rw [← h2]
    have hheap : st1.heap = parentPush st.heap cur (.vAddr st.heap.length) ++
        [{ heapGetD st.heap ma with memberValues := ([] : List Value), objectId := oid }] := by
      rw [← h2]
    have hplen : ma < (parentPush st.heap cur (.vAddr st.heap.length)).length := by
      rw [parentPush_length]
      exact hlt
    refine ⟨?_, ?_, ?_, ?_, ?_⟩
    · rw [hobjs, objLookup_objSet_ne st.objects _ (Ne.symm hne), hma]
    · rw [hheap, heapGetD_append_lt hplen, parentPush_getD_ne hcur]
    · rw [hheap, heapGetD_append_len_eq (parentPush_length _ _ _).symm]
    · rw [hobjs, objLookup_objSet_self]
    · rw [← h2]
  · exact Except.noConfusion h

/-- Witness for C9 on the concrete state `c9St`: cloning descriptor 5 into
object id 7 leaves entry 5 and the stored composite untouched. -/
theorem C9_classWithId_witness :
    objLookup c9CloneSt.objects 5 = some (Value.vAddr 0) ∧
    heapGetD c9CloneSt.heap 0 = heapGetD c9St.heap 0 ∧
    heapGetD c9CloneSt.heap 1 =
      { heapGetD c9St.heap 0 with memberValues := [], objectId := 7 } ∧
    objLookup c9CloneSt.objects 7 = some (Value.vAddr 1) ∧
    c9CloneSt.stack = [1] :=
  @C9_classWithId 7 5 ⟨[], 0⟩ c9St c9CloneSt none 0 rfl (by decide) (by decide)
    (by decide) rfl

/-- Counterexample to the original claim C9: with `objectId = metadataId`
the re-registration replaces the object-table entry under the metadata id
(it now points at the clone), so the existing entry is not left unchanged by
the operation. -/
theorem C9_counterexample :
    classWithIdCore 5 5 ⟨[], 0⟩ c9St none = Except.ok (Sum.inl c9DupSt) ∧
    objLookup c9St.objects 5 = some (Value.vAddr 0) ∧
    objLookup c9DupSt.objects 5 = some (Value.vAddr 1) :=
  ⟨rfl, rfl, rfl⟩

/-- Claim C10: a `BinaryArray` record whose rank field is zero reads an
empty lengths vector, and `lengths.reduce((a, b) => a + b)` on an empty
array throws: the decode dies computing the total length and never
registers an array object. -/
theorem C10_rank0_throws (r0 : Reader) (st : St) (hrank : baRank r0 = 0) :
    handleBinaryArray r0 st = Except.error Err.emptyReduce := by
  have h1 : (baLengths r0).1 = [] := by
    unfold baLengths
    rw [hrank]
    rfl
  unfold handleBinaryArray
  rw [h1]
  rfl

/-- Witness for C10: a concrete rank-zero BinaryArray record body. -/
theorem C10_rank0_throws_witness :
    baRank c10Reader = 0 ∧
    handleBinaryArray c10Reader (initSt []) = Except.error Err.emptyReduce :=
  ⟨rfl, C10_rank0_throws c10Reader (initSt []) rfl⟩
